import Mathlib

/-!
Verification of the command-scheduling core of the `protected_vcs_dram` DRAM
memory controller (`src/controller.c`).

The C source provides the data model (`struct request`, `struct row_request`,
`struct bank_request`), the timing constants, the Row Aliaser and the Bank
Conflict Grouper (both inside `scheduler`).  The Command Scheduler body and the
Timing Tracker are declared by the specification but absent from the source
(the `//schedule the conflicting rows` section of `scheduler` is an empty
stub); those parts are modelled from the specification and are marked as such.

Machine integers: the C fields are `int`; no arithmetic is performed on them by
the aliasing/grouping code (only equality comparison and copying), so they are
embedded as `Int` with no overflow concerns.  Cycle counts are nonnegative and
are embedded as `Nat`.
-/

namespace DramCtrl


/-! ### Constants from `src/controller.c` -/

def QUEUESIZE : Nat := 100

def BATCHSIZE : Nat := 5

def tRCD : Nat := 14

def tCL : Nat := 14

def tRAS : Nat := 28

def tRP : Nat := 14

def tRTP : Nat := 8

def tRRD_sg : Nat := 4

def tRRD_dg : Nat := 4

def tFAW : Nat := 16

def tRDRD_sg : Nat := 7

def tRDRD_dg : Nat := 4

/-! ### Data model (`struct request`, `struct row_request`, `struct bank_request`) -/

/-- `struct request` from `src/controller.c`. -/
structure Request where
  valid : Int
  bank_group : Int
  bank : Int
  row : Int
  col : Int
deriving DecidableEq

/-- `struct row_request` from `src/controller.c`.  The C field `col[BATCHSIZE]`
together with the fill counter `requests` is embedded as the list `cols`
(`requests = cols.length`); the in-bounds property of the C writes is proved
separately. -/
structure RowGroup where
  valid : Bool
  bank_group : Int
  bank : Int
  row : Int
  cols : List Int
  id : Nat
deriving DecidableEq

/-- `struct bank_request` from `src/controller.c`; `rows[BATCHSIZE]` with its
fill counter `requests` is embedded as the list `rows` of RowGroup ids. -/
structure BankQueue where
  valid : Bool
  bank_group : Int
  bank : Int
  rows : List Nat
deriving DecidableEq

/-- The (bank_group, bank, row) key of a request, i.e. the triple compared by
the aliasing loop. -/
def rKey (r : Request) : Int × Int × Int := (r.bank_group, r.bank, r.row)

/-- The (bank_group, bank, row) key of a row group. -/
def gKey (g : RowGroup) : Int × Int × Int := (g.bank_group, g.bank, g.row)

/-- The (bank_group, bank) key of a row group, i.e. the pair compared by the
bank-conflict loop. -/
def gbKey (g : RowGroup) : Int × Int := (g.bank_group, g.bank)

/-- The (bank_group, bank) key of a bank queue. -/
def qKey (q : BankQueue) : Int × Int := (q.bank_group, q.bank)

/-! ### Row Aliaser (`scheduler`, lines 56-79)

The C inner loop `for(j=0;j<row_counter;j++)` scans the already-created row
groups in order and appends the request's column to the first group whose
(bank_group, bank, row) matches, breaking out; if none matches, a new group is
appended with `id = row_counter + 1`.  Note that the loop reads every batch
entry unconditionally: the `valid` field is never consulted. -/

/-- One request inserted into the ordered row-group list: append the column to
the first matching group, or append a fresh group with id `n + 1` (where `n`
is the total number of existing groups) if no group matches. -/
def aliasInsert (r : Request) (n : Nat) : List RowGroup → List RowGroup
  | [] => [⟨true, r.bank_group, r.bank, r.row, [r.col], n + 1⟩]
  | g :: gs =>
    if r.bank_group = g.bank_group ∧ r.bank = g.bank ∧ r.row = g.row then
      { g with cols := g.cols ++ [r.col] } :: gs
    else
      g :: aliasInsert r n gs

/-- One iteration of the outer aliasing loop. -/
def aliasStep (gs : List RowGroup) (r : Request) : List RowGroup :=
  aliasInsert r gs.length gs

/-- The Row Aliaser: the value of `batch_aliased[0..row_counter)` after the
aliasing loop of `scheduler` has processed the whole batch. -/
def alias_batch (batch : List Request) : List RowGroup :=
  batch.foldl aliasStep []

/-! ### Bank Conflict Grouper (`scheduler`, lines 90-111) -/

/-- One row group inserted into the ordered bank-queue list: append its id to
the first queue whose (bank_group, bank) matches, or open a new queue. -/
def bankInsert (g : RowGroup) : List BankQueue → List BankQueue
  | [] => [⟨true, g.bank_group, g.bank, [g.id]⟩]
  | q :: qs =>
    if q.bank_group = g.bank_group ∧ q.bank = g.bank then
      { q with rows := q.rows ++ [g.id] } :: qs
    else
      q :: bankInsert g qs

/-- One iteration of the bank-conflict loop. -/
def bankStep (qs : List BankQueue) (g : RowGroup) : List BankQueue :=
  bankInsert g qs

/-- The Bank Conflict Grouper: the value of `row_conflicts[0..bank_counter)`
after the conflict loop of `scheduler` has processed every row group. -/
def bank_conflicts (gs : List RowGroup) : List BankQueue :=
  gs.foldl bankStep []

/-! ### First-seen deduplication (used to state the ordering contracts) -/

/-- Append a key unless already present. -/
def firstSeenInsert {α : Type} [DecidableEq α] (l : List α) (k : α) : List α :=
  if k ∈ l then l else l ++ [k]

/-- The distinct keys of a list in order of first occurrence. -/
def firstSeen {α : Type} [DecidableEq α] (ks : List α) : List α :=
  ks.foldl firstSeenInsert []

/-! ### The reference batch built by `main` (lines 126-157) -/

/-- The five requests `main` stores into `req_batch`. -/
def refBatch : List Request :=
  [⟨1, 0, 0, 1, 6⟩, ⟨1, 0, 0, 2, 5⟩, ⟨1, 0, 0, 1, 3⟩, ⟨1, 0, 0, 4, 4⟩,
   ⟨1, 2, 1, 2, 2⟩]

/-- The full functional characterization of the aliasing loop, as an invariant
of the processed prefix of the batch. -/
def AliasOK (b : List Request) (gs : List RowGroup) : Prop :=
  gs.map gKey = firstSeen (b.map rKey) ∧
  (∀ (i : Nat) (h : i < gs.length), (gs[i]).id = i + 1) ∧
  (∀ g ∈ gs, g.cols = (b.filter (fun r => decide (rKey r = gKey g))).map Request.col) ∧
  (∀ g ∈ gs, g.valid = true)

/-- The full functional characterization of the bank-conflict loop, as an
invariant of the processed prefix of the row-group list. -/
def BankOK (gs : List RowGroup) (qs : List BankQueue) : Prop :=
  qs.map qKey = firstSeen (gs.map gbKey) ∧
  (∀ q ∈ qs, q.rows = (gs.filter (fun g => decide (gbKey g = qKey q))).map RowGroup.id) ∧
  (∀ q ∈ qs, q.valid = true)

/-! ### Dereferencing a bank queue's row-group ids

Modelled from the spec: the Command Scheduler (missing from `src/controller.c`)
processes, for each `BankQueue`, "RowGroups in arrival order"; the queue stores
the 1-based RowGroup ids, so the scheduler looks each id up in the aliased
row-group list. -/

/-- The row groups referenced by a bank queue, in queue order. -/
def queueGroups (rgs : List RowGroup) (q : BankQueue) : List RowGroup :=
  q.rows.filterMap (fun i => rgs.find? (fun g => g.id == i))

/-! ### Timing Tracker and Command Scheduler

Modelled from the spec: `src/controller.c` declares the timing constants and
ends `scheduler` with an empty `//schedule the conflicting rows` section; the
Timing Tracker (spec section 4.3) and the Command Scheduler policy (spec
section 4.4) are absent from the source and are modelled here from the
specification text, using the timing constants of the source. -/

/-- The three DRAM device commands of the output schedule. -/
inductive CmdKind
  | ACTIVATE
  | READ
  | PRECHARGE
deriving DecidableEq

/-- A scheduled device command; `addr` is the row for ACTIVATE/PRECHARGE and
the column for READ. -/
structure ScheduledCommand where
  kind : CmdKind
  bank_group : Int
  bank : Int
  addr : Int
  issue_cycle : Nat
deriving DecidableEq

/-- Modelled from the spec: the call-scoped TimingState (spec section 3).
`lastAct`/`lastRead` hold the cycle and bank group of the most recent
ACTIVATE/READ ("never" = `none`); `actWindow` holds the four most recent
activate cycles across all banks, most recent first.  The per-bank
last-precharge entry is threaded separately through the per-bank-queue loop
(each bank is visited by exactly one queue). -/
structure TimingState where
  lastAct : Option (Nat × Int)
  lastRead : Option (Nat × Int)
  actWindow : List Nat
deriving DecidableEq

/-- Constraint (b) of `earliest_activate`: spacing from the most recent
ACTIVATE, with the same-group or different-group parameter. -/
def actConstraint (st : TimingState) (bg : Int) : Nat :=
  match st.lastAct with
  | none => 0
  | some (c, g) => c + (if g = bg then tRRD_sg else tRRD_dg)

/-- Constraint (c) of `earliest_activate`: the four-activate rolling window
permits a fifth activate `tFAW` after the 4th-most-recent one. -/
def fawConstraint (st : TimingState) : Nat :=
  match st.actWindow[3]? with
  | none => 0
  | some c => c + tFAW

/-- Modelled from the spec: `earliest_activate(bank_group, bank, now)`
(spec section 4.3). -/
def earliest_activate (st : TimingState) (lastPre : Option Nat) (bg : Int) (now : Nat) : Nat :=
  max (max now (match lastPre with | none => 0 | some c => c + tRP))
    (max (actConstraint st bg) (fawConstraint st))

/-- The read-to-read spacing constraint of `earliest_read`. -/
def readConstraint (st : TimingState) (bg : Int) : Nat :=
  match st.lastRead with
  | none => 0
  | some (c, g) => c + (if g = bg then tRDRD_sg else tRDRD_dg)

/-- Modelled from the spec: `earliest_read(bank_group, bank, activate_cycle,
now)` (spec section 4.3). -/
def earliest_read (st : TimingState) (bg : Int) (actCycle now : Nat) : Nat :=
  max (max now (actCycle + tRCD)) (readConstraint st bg)

/-- Modelled from the spec: `earliest_precharge(bank_group, bank,
activate_cycle, last_read_cycle_this_row, now)` (spec section 4.3). -/
def earliest_precharge (actCycle lastReadRow now : Nat) : Nat :=
  max (max now (actCycle + tRAS)) (lastReadRow + tRTP)

/-- Modelled from the spec: `record_activate` (spec section 4.3). -/
def record_activate (st : TimingState) (c : Nat) (bg : Int) : TimingState :=
  { st with lastAct := some (c, bg), actWindow := (c :: st.actWindow).take 4 }

/-- Modelled from the spec: `record_read` (spec section 4.3). -/
def record_read (st : TimingState) (c : Nat) (bg : Int) : TimingState :=
  { st with lastRead := some (c, bg) }

/-- The lower bound "prior READ's cycle + 1" (0 when there is no prior READ in
the current row group). -/
def prevBound : Option Nat → Nat
  | none => 0
  | some p => p + 1

/-- Modelled from the spec: the READ loop of the Command Scheduler (spec
section 4.4): each column is read at the maximum of `earliest_read` and the
prior READ's cycle + 1; each READ is recorded.  Returns the emitted READs, the
updated tracker, and the cycle of the last READ (`prev` if no column). -/
def schedReads (bg bank : Int) (a now : Nat) :
    TimingState → Option Nat → List Int → List ScheduledCommand × TimingState × Option Nat
  | st, prev, [] => ([], st, prev)
  | st, prev, c :: cs =>
    let r := max (earliest_read st bg a now) (prevBound prev)
    let rest := schedReads bg bank a now (record_read st r bg) (some r) cs
    (⟨.READ, bg, bank, c, r⟩ :: rest.1, rest.2)

/-- The last READ cycle of the row (falling back to the ACTIVATE cycle for a
row group with no column, where the READ-to-PRECHARGE constraint is vacuous). -/
def lastReadOr (a : Nat) : Option Nat → Nat
  | none => a
  | some r => r

/-- Modelled from the spec: scheduling of one RowGroup (spec section 4.4):
ACTIVATE at `earliest_activate`, one READ per column, then PRECHARGE at
`earliest_precharge`.  Returns the commands, the updated tracker and the
PRECHARGE cycle (the new per-bank last-precharge). -/
def schedRowGroup (now : Nat) (st : TimingState) (lastPre : Option Nat) (g : RowGroup) :
    List ScheduledCommand × TimingState × Nat :=
  let a := earliest_activate st lastPre g.bank_group now
  let st1 := record_activate st a g.bank_group
  let res := schedReads g.bank_group g.bank a now st1 none g.cols
  let p := earliest_precharge a (lastReadOr a res.2.2) now
  (⟨.ACTIVATE, g.bank_group, g.bank, g.row, a⟩ :: res.1
      ++ [⟨.PRECHARGE, g.bank_group, g.bank, g.row, p⟩],
    res.2.1, p)

/-- Modelled from the spec: scheduling of one BankQueue: its RowGroups in
arrival order, threading the bank's last-precharge cycle. -/
def schedQueue (now : Nat) : TimingState → Option Nat → List RowGroup →
    List ScheduledCommand × TimingState
  | st, _, [] => ([], st)
  | st, lastPre, g :: gs =>
    let res := schedRowGroup now st lastPre g
    let rest := schedQueue now res.2.1 (some res.2.2) gs
    (res.1 ++ rest.1, rest.2)

/-- Modelled from the spec: the Command Scheduler main loop: BankQueues in
arrival order, each starting with no precharge history for its (fresh) bank. -/
def schedQueues (now : Nat) (rgs : List RowGroup) : TimingState → List BankQueue →
    List ScheduledCommand × TimingState
  | st, [] => ([], st)
  | st, q :: qs =>
    let res := schedQueue now st none (queueGroups rgs q)
    let rest := schedQueues now rgs res.2 qs
    (res.1 ++ rest.1, rest.2)

/-- The initial tracker: every history entry is "never". -/
def initTiming : TimingState := ⟨none, none, []⟩

/-- The scheduled commands of a batch in emission order: Row Aliaser, then
Bank Conflict Grouper (both from `src/controller.c`), then the spec-modelled
Command Scheduler starting at cycle 0. -/
def scheduler_commands (batch : List Request) : List ScheduledCommand :=
  (schedQueues 0 (alias_batch batch) initTiming (bank_conflicts (alias_batch batch))).1

/-- Ordering of scheduled commands by issue cycle. -/
def cmdLE (x y : ScheduledCommand) : Prop := x.issue_cycle ≤ y.issue_cycle

instance : DecidableRel cmdLE := fun x y => Nat.decLe x.issue_cycle y.issue_cycle

instance : IsTotal ScheduledCommand cmdLE := ⟨fun x y => Nat.le_total x.issue_cycle y.issue_cycle⟩

instance : IsTrans ScheduledCommand cmdLE := ⟨fun _ _ _ => Nat.le_trans⟩

/-- The emitted command sequence: the emission-order commands re-sorted stably
by issue cycle (spec section 4.4). -/
def scheduler_output (batch : List Request) : List ScheduledCommand :=
  List.insertionSort cmdLE (scheduler_commands batch)

/-! ### Timing soundness: the applicable minimum spacing between two commands

For an ordered pair of commands to the same bank, or to the same bank group,
`applicable` gives the minimum cycle spacing demanded by the Timing Parameter
Set of `src/controller.c`; pairs related by no parameter (and pairs in
different bank groups) get 0. -/

/-- The applicable timing parameter for command `x` followed by command `y`. -/
def applicable (x y : ScheduledCommand) : Nat :=
  if x.bank_group = y.bank_group ∧ x.bank = y.bank then
    match x.kind, y.kind with
    | .ACTIVATE, .ACTIVATE => tRRD_sg
    | .ACTIVATE, .READ => tRCD
    | .ACTIVATE, .PRECHARGE => tRAS
    | .READ, .READ => tRDRD_sg
    | .READ, .PRECHARGE => tRTP
    | .PRECHARGE, .ACTIVATE => tRP
    | _, _ => 0
  else if x.bank_group = y.bank_group then
    match x.kind, y.kind with
    | .ACTIVATE, .ACTIVATE => tRRD_sg
    | .READ, .READ => tRDRD_sg
    | _, _ => 0
  else 0

/-- Timing soundness of an unordered pair: whichever command is not later, its
spacing to the other meets the applicable parameter. -/
def SymGap (x y : ScheduledCommand) : Prop :=
  (x.issue_cycle ≤ y.issue_cycle → x.issue_cycle + applicable x y ≤ y.issue_cycle) ∧
  (y.issue_cycle ≤ x.issue_cycle → y.issue_cycle + applicable y x ≤ x.issue_cycle)

/-! ### The scheduling invariants -/

/-- The activate cycles of a command list, in list order. -/
def actCycles (L : List ScheduledCommand) : List Nat :=
  (L.filter (fun x => decide (x.kind = CmdKind.ACTIVATE))).map ScheduledCommand.issue_cycle

/-- Consecutive entries are at least `tRRD` (= 4) apart. -/
def Gap4 (as : List Nat) : Prop := List.Chain' (fun a b => a + 4 ≤ b) as

/-- Entries four positions apart are at least `tFAW` apart. -/
def Spaced4 (as : List Nat) : Prop :=
  ∀ (i : Nat) (h : i + 4 < as.length), as[i] + tFAW ≤ as[i + 4]

/-- What the tracker's activate history promises about the commands emitted so
far. -/
def ActInv (L : List ScheduledCommand) (st : TimingState) : Prop :=
  st.actWindow = (actCycles L).reverse.take 4 ∧
  (st.lastAct = none → actCycles L = []) ∧
  (∀ c g, st.lastAct = some (c, g) →
    (actCycles L).getLast? = some c ∧
    ∀ x ∈ L, x.kind = CmdKind.ACTIVATE → x.issue_cycle ≤ c) ∧
  Gap4 (actCycles L) ∧ Spaced4 (actCycles L)

/-- What the tracker's read history promises about the commands emitted so
far. -/
def ReadInv (L : List ScheduledCommand) (st : TimingState) : Prop :=
  (st.lastRead = none → ∀ x ∈ L, x.kind ≠ CmdKind.READ) ∧
  (∀ c g, st.lastRead = some (c, g) → ∀ x ∈ L, x.kind = CmdKind.READ →
    x.issue_cycle ≤ c ∧ (x.issue_cycle = c → x.bank_group = g) ∧
    (x.issue_cycle < c → x.issue_cycle + 4 ≤ c))

/-- Classification of the commands already emitted to the bank currently being
scheduled: the just-issued ACTIVATE at cycle `a`, commands of earlier row
groups (tRCD before `a`), or READs of the current row group (bounded by the
running last-read cycle). -/
def BankCase (bg bk : Int) (a : Nat) (lastR : Option Nat) (x : ScheduledCommand) : Prop :=
  x.bank_group = bg ∧ x.bank = bk →
    (x.kind = CmdKind.ACTIVATE ∧ x.issue_cycle = a) ∨ x.issue_cycle + tRCD ≤ a ∨
    (x.kind = CmdKind.READ ∧ ∃ p, lastR = some p ∧ x.issue_cycle ≤ p)

/-! ### The `valid` flag has no influence on the computation -/

/-- The four fields of a request that the aliasing loop reads (everything but
`valid`). -/
def reqData (r : Request) : Int × Int × Int × Int := (r.bank_group, r.bank, r.row, r.col)

/-! ### Ingestion errors

Modelled from the spec: `src/controller.c` performs no validation (its
`scheduler` unconditionally walks the fixed-size batch); the CapacityExceeded
and InvalidRequest error paths of spec sections 4.4 and 7 are modelled here. -/

/-- The two ingestion-stage error kinds of the spec's error taxonomy that
concern a single scheduling call's input (ConfigurationError concerns the
timing parameters, which are compile-time constants in this program). -/
inductive IngestError
  | CapacityExceeded
  | InvalidRequest
deriving DecidableEq

/-- A request field that may not be negative. -/
def negField (r : Request) : Prop :=
  r.row < 0 ∨ r.col < 0 ∨ r.bank < 0 ∨ r.bank_group < 0

instance (r : Request) : Decidable (negField r) := by
  unfold negField
  infer_instance

/-- Modelled from the spec: per-entry validation at ingestion — "a request
with a negative row, column, bank, or bank-group value fails with
InvalidRequest at ingestion". -/
def checkRequest (r : Request) : Except IngestError Request :=
  if negField r then .error .InvalidRequest else .ok r

/-- The number of valid entries of a batch. -/
def countValid (b : List Request) : Nat :=
  (b.filter (fun r => decide (r.valid ≠ 0))).length

/-- Modelled from the spec: batch ingestion — "a batch with more valid
requests than the fixed capacity is rejected (fails with CapacityExceeded)
before aliasing begins"; an entry with a negative field is rejected alone and
the rest of the batch continues (spec section 7 policy choice). -/
def ingest (b : List Request) : Except IngestError (List Request) :=
  if BATCHSIZE < countValid b then .error .CapacityExceeded
  else .ok ((b.filter (fun r => decide (r.valid ≠ 0))).filter
    (fun r => decide (¬ negField r)))

/-- The Row Aliaser contract of claim C2, for a batch and two of its
requests: two requests share a RowGroup iff their (bank_group, bank, row)
keys are equal; group keys are pairwise distinct and listed in first-seen
order; ids are dense and 1-based; each group's columns are exactly the
matching batch columns in batch-arrival order (duplicates preserved). -/
def rowAliaserContract (b : List Request) (ri rj : Request) : Prop :=
  ((∃ g ∈ alias_batch b, rKey ri = gKey g ∧ rKey rj = gKey g) ↔ rKey ri = rKey rj) ∧
  ((alias_batch b).map gKey).Nodup ∧
  (alias_batch b).map gKey = firstSeen (b.map rKey) ∧
  (∀ (i : Nat) (h : i < (alias_batch b).length), ((alias_batch b)[i]).id = i + 1) ∧
  (∀ g ∈ alias_batch b, g.cols = (b.filter (fun r => decide (rKey r = gKey g))).map Request.col)

/-- A batch whose five entries are all invalid (`valid = 0`). -/
def allInvalidBatch : List Request := List.replicate BATCHSIZE ⟨0, 0, 0, 0, 0⟩

/-- The Bank Conflict Grouper contract of claim C4, for a row-group list and
two of its groups: two RowGroups share a BankQueue iff their (bank_group,
bank) keys are equal; queue keys are pairwise distinct and listed in
first-seen order; each queue lists exactly the ids of its matching RowGroups
in the order the Row Aliaser produced them. -/
def bankGrouperContract (gs : List RowGroup) (gi gj : RowGroup) : Prop :=
  ((∃ q ∈ bank_conflicts gs, gbKey gi = qKey q ∧ gbKey gj = qKey q) ↔ gbKey gi = gbKey gj) ∧
  ((bank_conflicts gs).map qKey).Nodup ∧
  (bank_conflicts gs).map qKey = firstSeen (gs.map gbKey) ∧
  (∀ q ∈ bank_conflicts gs, q.rows
    = (gs.filter (fun g => decide (gbKey g = qKey q))).map RowGroup.id)

/-- The columns of all row groups, in group order. -/
def colsUnion (gs : List RowGroup) : List Int := (gs.map RowGroup.cols).flatten

/-- A batch mixing valid and invalid entries (the invalid ones carry columns
7 and 9). -/
def mixedBatch : List Request :=
  [⟨1, 0, 0, 1, 6⟩, ⟨0, 0, 0, 1, 7⟩, ⟨1, 0, 0, 2, 5⟩, ⟨0, 3, 3, 3, 9⟩, ⟨1, 2, 1, 2, 2⟩]

/-- The ingestion contract of claim C7: a batch fails with CapacityExceeded
exactly when it has more valid requests than BATCHSIZE (so a batch of exactly
BATCHSIZE valid entries succeeds); a request fails the per-entry check with
InvalidRequest exactly when a field is negative; and a successful ingestion
keeps every valid entry except the rejected ones. -/
def ingestContract (b : List Request) (r : Request) : Prop :=
  (ingest b = Except.error IngestError.CapacityExceeded ↔ BATCHSIZE < countValid b) ∧
  ((∃ l, ingest b = Except.ok l) ↔ countValid b ≤ BATCHSIZE) ∧
  (checkRequest r = Except.error IngestError.InvalidRequest ↔ negField r) ∧
  (checkRequest r = Except.ok r ↔ ¬ negField r) ∧
  (countValid b ≤ BATCHSIZE →
    ingest b = Except.ok ((b.filter (fun x => decide (x.valid ≠ 0))).filter
      (fun x => decide (¬ negField x))))

/-- The boundedness facts of claim C8: every stage of one scheduling call is
bounded in terms of BATCHSIZE. -/
def boundedOutput (b : List Request) : Prop :=
  (alias_batch b).length ≤ BATCHSIZE ∧
  (bank_conflicts (alias_batch b)).length ≤ BATCHSIZE ∧
  (scheduler_commands b).length ≤ 3 * BATCHSIZE ∧
  (scheduler_output b).length ≤ 3 * BATCHSIZE

/-- The reference batch with every valid flag cleared. -/
def refBatchZero : List Request :=
  [⟨0, 0, 0, 1, 6⟩, ⟨0, 0, 0, 2, 5⟩, ⟨0, 0, 0, 1, 3⟩, ⟨0, 0, 0, 4, 4⟩,
   ⟨0, 2, 1, 2, 2⟩]

/-- The in-bounds facts of claim C10: all array indices of the C aliasing and
grouping loops stay within the BATCHSIZE-sized arrays. -/
def inBoundsContract (b : List Request) : Prop :=
  (alias_batch b).length ≤ BATCHSIZE ∧
  (∀ g ∈ alias_batch b, g.cols.length ≤ BATCHSIZE) ∧
  (∀ (i : Nat) (h : i < (alias_batch b).length), ((alias_batch b)[i]).id = i + 1) ∧
  (bank_conflicts (alias_batch b)).length ≤ (alias_batch b).length ∧
  (∀ q ∈ bank_conflicts (alias_batch b), q.rows.length ≤ BATCHSIZE)

/-! ### Proofs -/

/-! ### Properties of first-seen deduplication -/

lemma foldl_firstSeenInsert_mem {α : Type} [DecidableEq α] (k : α) :
    ∀ (ks acc : List α), k ∈ ks.foldl firstSeenInsert acc ↔ k ∈ acc ∨ k ∈ ks := by
  intro ks
  induction ks with
  | nil => simp
  | cons k₀ ks ih =>
    intro acc
    rw [List.foldl_cons, ih]
    unfold firstSeenInsert
    by_cases h : k₀ ∈ acc
    · simp only [if_pos h, List.mem_cons]
      constructor
      · rintro (ha | hk) <;> tauto
      · rintro (ha | rfl | hk) <;> tauto
    · simp only [if_neg h, List.mem_append, List.mem_singleton, List.mem_cons]
      tauto

lemma mem_firstSeen {α : Type} [DecidableEq α] (k : α) (ks : List α) :
    k ∈ firstSeen ks ↔ k ∈ ks := by
  unfold firstSeen
  rw [foldl_firstSeenInsert_mem]
  simp

lemma foldl_firstSeenInsert_nodup {α : Type} [DecidableEq α] :
    ∀ (ks acc : List α), acc.Nodup → (ks.foldl firstSeenInsert acc).Nodup := by
  intro ks
  induction ks with
  | nil => exact fun _ h => h
  | cons k₀ ks ih =>
    intro acc hacc
    rw [List.foldl_cons]
    apply ih
    unfold firstSeenInsert
    by_cases h : k₀ ∈ acc
    · simpa [if_pos h] using hacc
    · rw [if_neg h]
      simpa [List.nodup_append] using ⟨hacc, h⟩

lemma firstSeen_nodup {α : Type} [DecidableEq α] (ks : List α) :
    (firstSeen ks).Nodup :=
  foldl_firstSeenInsert_nodup ks [] List.nodup_nil

lemma firstSeen_concat {α : Type} [DecidableEq α] (ks : List α) (k : α) :
    firstSeen (ks ++ [k]) = firstSeenInsert (firstSeen ks) k := by
  unfold firstSeen
  rw [List.foldl_append]
  rfl

/-! ### Characterization of the Row Aliaser -/

lemma gKey_update (g : RowGroup) (c : Int) : gKey { g with cols := g.cols ++ [c] } = gKey g := rfl

lemma aliasInsert_of_not_mem (r : Request) (n : Nat) :
    ∀ (gs : List RowGroup), rKey r ∉ gs.map gKey →
      aliasInsert r n gs = gs ++ [⟨true, r.bank_group, r.bank, r.row, [r.col], n + 1⟩] := by
  intro gs
  induction gs with
  | nil => intro _; rfl
  | cons g gs ih =>
    intro hm
    have hne : rKey r ≠ gKey g := by
      intro h
      exact hm (by rw [h]; exact List.mem_map.mpr ⟨g, List.mem_cons_self g gs, rfl⟩)
    have hcond : ¬(r.bank_group = g.bank_group ∧ r.bank = g.bank ∧ r.row = g.row) := by
      intro h
      exact hne (by simp [rKey, gKey, h.1, h.2.1, h.2.2])
    have hm' : rKey r ∉ gs.map gKey := by
      intro hc
      exact hm (by rw [List.map_cons]; exact List.mem_cons_of_mem _ hc)
    rw [aliasInsert, if_neg hcond, ih hm']
    rfl

lemma aliasInsert_of_mem (r : Request) (n : Nat) :
    ∀ (gs : List RowGroup), (gs.map gKey).Nodup → rKey r ∈ gs.map gKey →
      aliasInsert r n gs =
        gs.map (fun g => if gKey g = rKey r then { g with cols := g.cols ++ [r.col] } else g) := by
  intro gs
  induction gs with
  | nil => intro _ hm; simp at hm
  | cons g gs ih =>
    intro hnd hm
    by_cases h : rKey r = gKey g
    · have hcond : r.bank_group = g.bank_group ∧ r.bank = g.bank ∧ r.row = g.row := by
        have := h
        simp [rKey, gKey, Prod.ext_iff] at this
        exact ⟨this.1, this.2.1, this.2.2⟩
      rw [aliasInsert, if_pos hcond]
      have hnotin : ∀ g' ∈ gs, gKey g' ≠ rKey r := by
        intro g' hg' heq
        rw [List.map_cons, List.nodup_cons] at hnd
        exact hnd.1 (by rw [← h, ← heq]; exact List.mem_map.mpr ⟨g', hg', rfl⟩)
      simp only [List.map_cons, if_pos h.symm]
      congr 1
      exact ((List.map_congr_left fun g' hg' => if_neg (hnotin g' hg')).trans
        (List.map_id gs)).symm
    · have hcond : ¬(r.bank_group = g.bank_group ∧ r.bank = g.bank ∧ r.row = g.row) := by
        intro hc
        exact h (by simp [rKey, gKey, hc.1, hc.2.1, hc.2.2])
      have hm' : rKey r ∈ gs.map gKey := by
        rw [List.map_cons, List.mem_cons] at hm
        exact hm.resolve_left h
      rw [aliasInsert, if_neg hcond, ih (List.Nodup.of_cons hnd) hm']
      simp only [List.map_cons, if_neg (fun hh : gKey g = rKey r => h hh.symm)]

lemma aliasOK_step {b : List Request} {gs : List RowGroup} (r : Request)
    (h : AliasOK b gs) : AliasOK (b ++ [r]) (aliasStep gs r) := by
  obtain ⟨hkeys, hids, hcols, hval⟩ := h
  have hnd : (gs.map gKey).Nodup := hkeys ▸ firstSeen_nodup _
  have hfs : firstSeen ((b ++ [r]).map rKey) = firstSeenInsert (firstSeen (b.map rKey)) (rKey r) := by
    rw [List.map_append, List.map_singleton, firstSeen_concat]
  by_cases hm : rKey r ∈ gs.map gKey
  · -- the request aliases into an existing group
    unfold aliasStep
    rw [aliasInsert_of_mem r gs.length gs hnd hm]
    have hmfs : rKey r ∈ firstSeen (b.map rKey) := hkeys ▸ hm
    refine ⟨?_, ?_, ?_, ?_⟩
    · rw [List.map_map]
      have : (gKey ∘ fun g => if gKey g = rKey r then { g with cols := g.cols ++ [r.col] } else g)
          = gKey := by
        funext g
        by_cases hg : gKey g = rKey r <;> simp [Function.comp, hg, gKey_update]
      rw [this, hkeys, hfs]
      unfold firstSeenInsert
      rw [if_pos hmfs]
    · intro i hi
      rw [List.getElem_map]
      have hi' : i < gs.length := by simpa using hi
      by_cases hg : gKey gs[i] = rKey r <;> simp [hg, hids i hi']
    · intro g' hg'
      obtain ⟨g, hg, rfl⟩ := List.mem_map.mp hg'
      rw [List.filter_append]
      by_cases hg2 : gKey g = rKey r
      · simp only [if_pos hg2, gKey_update]
        have hr : decide (rKey r = gKey g) = true := by simp [hg2.symm]
        simp only [List.filter_cons, List.filter_nil, hr, if_pos]
        rw [List.map_append]
        simp [hcols g hg, hg2]
      · simp only [if_neg hg2]
        have hr : ¬ decide (rKey r = gKey g) = true := by simp; exact fun hh => hg2 hh.symm
        simp only [List.filter_cons, List.filter_nil, hr, if_neg, ite_false]
        simpa using hcols g hg
    · intro g' hg'
      obtain ⟨g, hg, rfl⟩ := List.mem_map.mp hg'
      by_cases hg2 : gKey g = rKey r <;> simp [hg2, hval g hg]
  · -- the request opens a new group at the end
    unfold aliasStep
    rw [aliasInsert_of_not_mem r gs.length gs hm]
    have hmb : rKey r ∉ b.map rKey := by
      intro hc
      exact hm (hkeys ▸ (mem_firstSeen _ _).mpr hc)
    have hnewkey : gKey ⟨true, r.bank_group, r.bank, r.row, [r.col], gs.length + 1⟩ = rKey r := rfl
    refine ⟨?_, ?_, ?_, ?_⟩
    · rw [List.map_append, List.map_singleton, hnewkey, hkeys, hfs]
      unfold firstSeenInsert
      rw [if_neg (fun hc => hm (hkeys ▸ hc))]
    · intro i hi
      rw [List.length_append, List.length_singleton] at hi
      by_cases hlt : i < gs.length
      · rw [List.getElem_append_left hlt]
        exact hids i hlt
      · have : i = gs.length := by omega
        subst this
        rw [List.getElem_append_right (le_refl _)]
        simp
    · intro g' hg'
      rw [List.mem_append, List.mem_singleton] at hg'
      rcases hg' with hg | rfl
      · have hne : ¬ (rKey r = gKey g') := by
          intro hc
          exact hm (hc ▸ List.mem_map.mpr ⟨g', hg, rfl⟩)
        rw [List.filter_append]
        simp only [List.filter_cons, List.filter_nil]
        rw [if_neg (by simpa using hne)]
        simpa using hcols g' hg
      · rw [hnewkey, List.filter_append]
        have hb : b.filter (fun r' => decide (rKey r' = rKey r)) = [] := by
          rw [List.filter_eq_nil_iff]
          intro r' hr' hc
          simp at hc
          exact hmb (hc ▸ List.mem_map.mpr ⟨r', hr', rfl⟩)
        simp [hb]
    · intro g' hg'
      rw [List.mem_append, List.mem_singleton] at hg'
      rcases hg' with hg | rfl
      · exact hval g' hg
      · rfl

/-- The Row Aliaser satisfies its functional characterization on every batch. -/
lemma alias_batch_ok (b : List Request) : AliasOK b (alias_batch b) := by
  induction b using List.reverseRecOn with
  | nil =>
    refine ⟨rfl, ?_, ?_, ?_⟩ <;> simp [alias_batch]
  | append_singleton b r ih =>
    have : alias_batch (b ++ [r]) = aliasStep (alias_batch b) r := by
      unfold alias_batch
      rw [List.foldl_append]
      rfl
    rw [this]
    exact aliasOK_step r ih

/-! ### Characterization of the Bank Conflict Grouper -/

lemma qKey_update (q : BankQueue) (i : Nat) : qKey { q with rows := q.rows ++ [i] } = qKey q := rfl

lemma bankInsert_of_not_mem (g : RowGroup) :
    ∀ (qs : List BankQueue), gbKey g ∉ qs.map qKey →
      bankInsert g qs = qs ++ [⟨true, g.bank_group, g.bank, [g.id]⟩] := by
  intro qs
  induction qs with
  | nil => intro _; rfl
  | cons q qs ih =>
    intro hm
    have hne : gbKey g ≠ qKey q := by
      intro h
      exact hm (by rw [h]; exact List.mem_map.mpr ⟨q, List.mem_cons_self q qs, rfl⟩)
    have hcond : ¬(q.bank_group = g.bank_group ∧ q.bank = g.bank) := by
      intro h
      exact hne (by simp [gbKey, qKey, h.1, h.2])
    have hm' : gbKey g ∉ qs.map qKey := by
      intro hc
      exact hm (by rw [List.map_cons]; exact List.mem_cons_of_mem _ hc)
    rw [bankInsert, if_neg hcond, ih hm']
    rfl

lemma bankInsert_of_mem (g : RowGroup) :
    ∀ (qs : List BankQueue), (qs.map qKey).Nodup → gbKey g ∈ qs.map qKey →
      bankInsert g qs =
        qs.map (fun q => if qKey q = gbKey g then { q with rows := q.rows ++ [g.id] } else q) := by
  intro qs
  induction qs with
  | nil => intro _ hm; simp at hm
  | cons q qs ih =>
    intro hnd hm
    by_cases h : gbKey g = qKey q
    · have hcond : q.bank_group = g.bank_group ∧ q.bank = g.bank := by
        have := h
        simp [gbKey, qKey, Prod.ext_iff] at this
        exact ⟨this.1.symm, this.2.symm⟩
      rw [bankInsert, if_pos hcond]
      have hnotin : ∀ q' ∈ qs, qKey q' ≠ gbKey g := by
        intro q' hq' heq
        rw [List.map_cons, List.nodup_cons] at hnd
        exact hnd.1 (by rw [← h, ← heq]; exact List.mem_map.mpr ⟨q', hq', rfl⟩)
      simp only [List.map_cons, if_pos h.symm]
      congr 1
      exact ((List.map_congr_left fun q' hq' => if_neg (hnotin q' hq')).trans
        (List.map_id qs)).symm
    · have hcond : ¬(q.bank_group = g.bank_group ∧ q.bank = g.bank) := by
        intro hc
        exact h (by simp [gbKey, qKey, hc.1, hc.2])
      have hm' : gbKey g ∈ qs.map qKey := by
        rw [List.map_cons, List.mem_cons] at hm
        exact hm.resolve_left h
      rw [bankInsert, if_neg hcond, ih (List.Nodup.of_cons hnd) hm']
      simp only [List.map_cons, if_neg (fun hh : qKey q = gbKey g => h hh.symm)]

lemma bankOK_step {gs : List RowGroup} {qs : List BankQueue} (g : RowGroup)
    (h : BankOK gs qs) : BankOK (gs ++ [g]) (bankStep qs g) := by
  obtain ⟨hkeys, hrows, hval⟩ := h
  have hnd : (qs.map qKey).Nodup := hkeys ▸ firstSeen_nodup _
  have hfs : firstSeen ((gs ++ [g]).map gbKey)
      = firstSeenInsert (firstSeen (gs.map gbKey)) (gbKey g) := by
    rw [List.map_append, List.map_singleton, firstSeen_concat]
  by_cases hm : gbKey g ∈ qs.map qKey
  · unfold bankStep
    rw [bankInsert_of_mem g qs hnd hm]
    have hmfs : gbKey g ∈ firstSeen (gs.map gbKey) := hkeys ▸ hm
    refine ⟨?_, ?_, ?_⟩
    · rw [List.map_map]
      have : (qKey ∘ fun q => if qKey q = gbKey g then { q with rows := q.rows ++ [g.id] } else q)
          = qKey := by
        funext q
        by_cases hq : qKey q = gbKey g <;> simp [Function.comp, hq, qKey_update]
      rw [this, hkeys, hfs]
      unfold firstSeenInsert
      rw [if_pos hmfs]
    · intro q' hq'
      obtain ⟨q, hq, rfl⟩ := List.mem_map.mp hq'
      rw [List.filter_append]
      by_cases hq2 : qKey q = gbKey g
      · have hkq : qKey { q with rows := q.rows ++ [g.id] } = qKey q := rfl
        simp only [if_pos hq2, hkq]
        have hr : decide (gbKey g = qKey q) = true := by simp [hq2.symm]
        simp only [List.filter_cons, List.filter_nil, hr, if_pos]
        rw [List.map_append]
        simp [hrows q hq, hq2]
      · simp only [if_neg hq2]
        have hr : ¬ decide (gbKey g = qKey q) = true := by simp; exact fun hh => hq2 hh.symm
        simp only [List.filter_cons, List.filter_nil, hr, if_neg, ite_false]
        simpa using hrows q hq
    · intro q' hq'
      obtain ⟨q, hq, rfl⟩ := List.mem_map.mp hq'
      by_cases hq2 : qKey q = gbKey g <;> simp [hq2, hval q hq]
  · unfold bankStep
    rw [bankInsert_of_not_mem g qs hm]
    have hnewkey : qKey ⟨true, g.bank_group, g.bank, [g.id]⟩ = gbKey g := rfl
    refine ⟨?_, ?_, ?_⟩
    · rw [List.map_append, List.map_singleton, hnewkey, hkeys, hfs]
      unfold firstSeenInsert
      rw [if_neg (fun hc => hm (hkeys ▸ hc))]
    · intro q' hq'
      rw [List.mem_append, List.mem_singleton] at hq'
      rcases hq' with hq | rfl
      · have hne : ¬ (gbKey g = qKey q') := by
          intro hc
          exact hm (hc ▸ List.mem_map.mpr ⟨q', hq, rfl⟩)
        rw [List.filter_append]
        simp only [List.filter_cons, List.filter_nil]
        rw [if_neg (by simpa using hne)]
        simpa using hrows q' hq
      · rw [hnewkey, List.filter_append]
        have hb : gs.filter (fun g' => decide (gbKey g' = gbKey g)) = [] := by
          rw [List.filter_eq_nil_iff]
          intro g' hg' hc
          simp at hc
          have : gbKey g ∈ firstSeen (gs.map gbKey) :=
            (mem_firstSeen _ _).mpr (hc ▸ List.mem_map.mpr ⟨g', hg', rfl⟩)
          exact hm (hkeys ▸ this)
        simp [hb]
    · intro q' hq'
      rw [List.mem_append, List.mem_singleton] at hq'
      rcases hq' with hq | rfl
      · exact hval q' hq
      · rfl

/-- The Bank Conflict Grouper satisfies its functional characterization on
every row-group list. -/
lemma bank_conflicts_ok (gs : List RowGroup) : BankOK gs (bank_conflicts gs) := by
  induction gs using List.reverseRecOn with
  | nil =>
    refine ⟨rfl, ?_, ?_⟩ <;> simp [bank_conflicts]
  | append_singleton gs g ih =>
    have : bank_conflicts (gs ++ [g]) = bankStep (bank_conflicts gs) g := by
      unfold bank_conflicts
      rw [List.foldl_append]
      rfl
    rw [this]
    exact bankOK_step g ih

lemma find?_id_dense :
    ∀ (gs : List RowGroup) (off : Nat),
      (∀ (i : Nat) (h : i < gs.length), (gs[i]).id = off + i + 1) →
      ∀ (j : Nat) (hj : j < gs.length),
        gs.find? (fun g => g.id == off + j + 1) = some gs[j] := by
  intro gs
  induction gs with
  | nil => intro off _ j hj; simp at hj
  | cons g gs ih =>
    intro off hid j hj
    have hg : g.id = off + 1 := by simpa using hid 0 (by simp)
    cases j with
    | zero =>
      have : (g.id == off + 0 + 1) = true := by simp [hg]
      simp [List.find?_cons, this]
    | succ j' =>
      have hne : (g.id == off + (j' + 1) + 1) = false := by
        rw [hg]
        simp only [beq_eq_false_iff_ne, ne_eq]
        omega
      have hid' : ∀ (i : Nat) (h : i < gs.length), (gs[i]).id = (off + 1) + i + 1 := by
        intro i h
        have := hid (i + 1) (by simpa using Nat.succ_lt_succ h)
        simpa [Nat.add_assoc, Nat.add_comm, Nat.add_left_comm] using this
      have hrec := ih (off + 1) hid' j' (by simpa using Nat.lt_of_succ_lt_succ hj)
      have harith : off + 1 + j' + 1 = off + (j' + 1) + 1 := by omega
      rw [harith] at hrec
      simp [List.find?_cons, hne, hrec]

lemma find?_id_of_mem (gs : List RowGroup)
    (hid : ∀ (i : Nat) (h : i < gs.length), (gs[i]).id = i + 1)
    (g : RowGroup) (hg : g ∈ gs) :
    gs.find? (fun g' => g'.id == g.id) = some g := by
  obtain ⟨j, hj, rfl⟩ := List.getElem_of_mem hg
  have hid0 : ∀ (i : Nat) (h : i < gs.length), (gs[i]).id = 0 + i + 1 := by
    intro i h
    simpa using hid i h
  have := find?_id_dense gs 0 hid0 j hj
  rw [hid j hj]
  simpa using this

lemma filterMap_find?_of_ids (rgs : List RowGroup) :
    ∀ (l : List RowGroup),
      (∀ g ∈ l, rgs.find? (fun g' => g'.id == g.id) = some g) →
      (l.map RowGroup.id).filterMap (fun i => rgs.find? (fun g => g.id == i)) = l := by
  intro l
  induction l with
  | nil => intro _; rfl
  | cons g l ih =>
    intro h
    simp only [List.map_cons, List.filterMap_cons, h g (List.mem_cons_self g l)]
    rw [ih fun g' hg' => h g' (List.mem_cons_of_mem _ hg')]

/-- For a bank queue produced by the grouper from the aliased batch, the id
dereference recovers exactly the row groups with that queue's bank key, in
aliaser order. -/
lemma queueGroups_eq_filter (b : List Request) (q : BankQueue)
    (hq : q ∈ bank_conflicts (alias_batch b)) :
    queueGroups (alias_batch b) q
      = (alias_batch b).filter (fun g => decide (gbKey g = qKey q)) := by
  have hids := (alias_batch_ok b).2.1
  have hrows := (bank_conflicts_ok (alias_batch b)).2.1 q hq
  unfold queueGroups
  rw [hrows]
  apply filterMap_find?_of_ids
  intro g hg
  exact find?_id_of_mem _ hids g (List.mem_of_mem_filter hg)

lemma queueGroups_keys (b : List Request) (q : BankQueue)
    (hq : q ∈ bank_conflicts (alias_batch b)) :
    ∀ g ∈ queueGroups (alias_batch b) q, g.bank_group = q.bank_group ∧ g.bank = q.bank := by
  intro g hg
  rw [queueGroups_eq_filter b q hq] at hg
  have := List.of_mem_filter hg
  simp [gbKey, qKey, Prod.ext_iff] at this
  exact this

lemma symGap_symm {x y : ScheduledCommand} (h : SymGap x y) : SymGap y x := ⟨h.2, h.1⟩

lemma symGap_left {x y : ScheduledCommand}
    (h1 : x.issue_cycle + applicable x y ≤ y.issue_cycle)
    (h2 : x.issue_cycle < y.issue_cycle) : SymGap x y :=
  ⟨fun _ => h1, fun hle => absurd hle (by omega)⟩

lemma symGap_zero {x y : ScheduledCommand}
    (h1 : applicable x y = 0) (h2 : applicable y x = 0) : SymGap x y :=
  ⟨fun hle => by omega, fun hle => by omega⟩

lemma app_same_bank {x y : ScheduledCommand}
    (h1 : x.bank_group = y.bank_group) (h2 : x.bank = y.bank) :
    applicable x y = (match x.kind, y.kind with
      | CmdKind.ACTIVATE, CmdKind.ACTIVATE => tRRD_sg
      | CmdKind.ACTIVATE, CmdKind.READ => tRCD
      | CmdKind.ACTIVATE, CmdKind.PRECHARGE => tRAS
      | CmdKind.READ, CmdKind.READ => tRDRD_sg
      | CmdKind.READ, CmdKind.PRECHARGE => tRTP
      | CmdKind.PRECHARGE, CmdKind.ACTIVATE => tRP
      | _, _ => 0) := by
  unfold applicable
  rw [if_pos ⟨h1, h2⟩]

lemma app_group {x y : ScheduledCommand}
    (hb : ¬(x.bank_group = y.bank_group ∧ x.bank = y.bank))
    (hg : x.bank_group = y.bank_group) :
    applicable x y = (match x.kind, y.kind with
      | CmdKind.ACTIVATE, CmdKind.ACTIVATE => tRRD_sg
      | CmdKind.READ, CmdKind.READ => tRDRD_sg
      | _, _ => 0) := by
  unfold applicable
  rw [if_neg hb, if_pos hg]

lemma app_diff {x y : ScheduledCommand} (hg : ¬ x.bank_group = y.bank_group) :
    applicable x y = 0 := by
  unfold applicable
  rw [if_neg (fun h => hg h.1), if_neg hg]

lemma applicable_le (x y : ScheduledCommand) : applicable x y ≤ 28 := by
  obtain ⟨kx, bgx, bx, ax, cx⟩ := x
  obtain ⟨ky, bgy, by_, ay, cy⟩ := y
  unfold applicable
  split_ifs <;> cases kx <;> cases ky <;>
    simp [tRRD_sg, tRRD_dg, tRCD, tRAS, tRDRD_sg, tRTP, tRP]

lemma applicable_to_act_le (x y : ScheduledCommand) (hy : y.kind = CmdKind.ACTIVATE) :
    applicable x y ≤ 14 := by
  obtain ⟨kx, bgx, bx, ax, cx⟩ := x
  obtain ⟨ky, bgy, by_, ay, cy⟩ := y
  cases hy
  unfold applicable
  split_ifs <;> cases kx <;> simp [tRRD_sg, tRP]

lemma readInv_congr {L : List ScheduledCommand} {st st' : TimingState}
    (h : ReadInv L st) (he : st'.lastRead = st.lastRead) : ReadInv L st' := by
  unfold ReadInv at *
  rw [he]
  exact h

lemma actInv_congr {L : List ScheduledCommand} {st st' : TimingState}
    (h : ActInv L st) (ha : st'.lastAct = st.lastAct) (hw : st'.actWindow = st.actWindow) :
    ActInv L st' := by
  unfold ActInv at *
  rw [ha, hw]
  exact h

lemma actCycles_append (L M : List ScheduledCommand) :
    actCycles (L ++ M) = actCycles L ++ actCycles M := by
  simp [actCycles, List.filter_append]

lemma actCycles_nonact {M : List ScheduledCommand} (h : ∀ x ∈ M, x.kind ≠ CmdKind.ACTIVATE) :
    actCycles M = [] := by
  unfold actCycles
  rw [List.filter_eq_nil_iff.mpr (by intro x hx; simpa using h x hx)]
  rfl

lemma actCycles_single_act {x : ScheduledCommand} (h : x.kind = CmdKind.ACTIVATE) :
    actCycles [x] = [x.issue_cycle] := by
  simp [actCycles, h]

lemma mem_actCycles {L : List ScheduledCommand} {x : ScheduledCommand}
    (hx : x ∈ L) (hk : x.kind = CmdKind.ACTIVATE) : x.issue_cycle ∈ actCycles L :=
  List.mem_map.mpr ⟨x, List.mem_filter.mpr ⟨hx, by simp [hk]⟩, rfl⟩

lemma readInv_append_nonread {L M : List ScheduledCommand} {st : TimingState}
    (hR : ReadInv L st) (hM : ∀ x ∈ M, x.kind ≠ CmdKind.READ) : ReadInv (L ++ M) st := by
  obtain ⟨h0, h1⟩ := hR
  refine ⟨?_, ?_⟩
  · intro hn x hx
    rcases List.mem_append.mp hx with h | h
    · exact h0 hn x h
    · exact hM x h
  · intro c g hs x hx hk
    rcases List.mem_append.mp hx with h | h
    · exact h1 c g hs x h hk
    · exact absurd hk (hM x h)

lemma actInv_append_nonact {L M : List ScheduledCommand} {st : TimingState}
    (hA : ActInv L st) (hM : ∀ x ∈ M, x.kind ≠ CmdKind.ACTIVATE) : ActInv (L ++ M) st := by
  obtain ⟨hw, h0, h1, hg, hs⟩ := hA
  have hac : actCycles (L ++ M) = actCycles L := by
    rw [actCycles_append, actCycles_nonact hM, List.append_nil]
  refine ⟨by rw [hac]; exact hw, by rw [hac]; exact h0, ?_, by rw [hac]; exact hg,
    by rw [hac]; exact hs⟩
  intro c g hs'
  obtain ⟨hl, hb⟩ := h1 c g hs'
  refine ⟨by rw [hac]; exact hl, ?_⟩
  intro x hx hk
  rcases List.mem_append.mp hx with h | h
  · exact hb x h hk
  · exact absurd hk (hM x h)

/-! ### Spacing facts derived from the tracker constraints -/

lemma reads_bound {L : List ScheduledCommand} {st : TimingState} {bg : Int} {r : Nat}
    (hR : ReadInv L st) (hr : readConstraint st bg ≤ r) :
    ∀ x ∈ L, x.kind = CmdKind.READ →
      x.issue_cycle + 4 ≤ r ∧ (x.bank_group = bg → x.issue_cycle + 7 ≤ r) := by
  intro x hx hk
  obtain ⟨h0, h1⟩ := hR
  rcases hlr : st.lastRead with - | ⟨c, g⟩
  · exact absurd hk (h0 hlr x hx)
  · obtain ⟨hle, heq, hlt⟩ := h1 c g hlr x hx hk
    unfold readConstraint at hr
    rw [hlr] at hr
    simp only [tRDRD_sg, tRDRD_dg] at hr
    by_cases hc : x.issue_cycle = c
    · have hgg : x.bank_group = g := heq hc
      by_cases hgb : g = bg
      · rw [if_pos hgb] at hr
        exact ⟨by omega, fun _ => by omega⟩
      · rw [if_neg hgb] at hr
        refine ⟨by omega, fun hxb => absurd (hgg ▸ hxb) hgb⟩
    · have h4 : x.issue_cycle + 4 ≤ c := hlt (lt_of_le_of_ne hle hc)
      split_ifs at hr <;> exact ⟨by omega, fun _ => by omega⟩

lemma acts_bound {L : List ScheduledCommand} {st : TimingState} {bg : Int} {a : Nat}
    (hA : ActInv L st) (ha : actConstraint st bg ≤ a) :
    ∀ x ∈ L, x.kind = CmdKind.ACTIVATE → x.issue_cycle + 4 ≤ a := by
  intro x hx hk
  obtain ⟨-, h0, h1, -, -⟩ := hA
  rcases hla : st.lastAct with - | ⟨c, g⟩
  · have hmem := mem_actCycles hx hk
    rw [h0 hla] at hmem
    simp at hmem
  · have hxc := (h1 c g hla).2 x hx hk
    have ha' : c + (if g = bg then tRRD_sg else tRRD_dg) ≤ a := by
      unfold actConstraint at ha
      rw [hla] at ha
      exact ha
    have h4 : (if g = bg then tRRD_sg else tRRD_dg) = 4 := by
      split <;> rfl
    omega

lemma gap4_concat {as : List Nat} {a : Nat} (h : Gap4 as)
    (hlast : ∀ c, as.getLast? = some c → c + 4 ≤ a) : Gap4 (as ++ [a]) := by
  unfold Gap4 at *
  rw [List.chain'_append]
  refine ⟨h, List.chain'_singleton a, ?_⟩
  intro x hx y hy
  have hya : a = y := by simpa using hy
  rw [← hya]
  exact hlast x (by simpa using hx)

lemma spaced4_concat {as : List Nat} {a : Nat} (hsp : Spaced4 as)
    (hfaw : 4 ≤ as.length → ∀ v, as[as.length - 4]? = some v → v + tFAW ≤ a) :
    Spaced4 (as ++ [a]) := by
  intro i h
  rw [List.length_append, List.length_singleton] at h
  by_cases hi : i + 4 < as.length
  · have h1 : i < as.length := by omega
    rw [List.getElem_append_left h1, List.getElem_append_left hi]
    exact hsp i hi
  · have h4 : i + 4 = as.length := by omega
    have hi' : i < as.length := by omega
    rw [List.getElem_append_left hi',
      List.getElem_append_right (by omega : as.length ≤ i + 4)]
    simp only [show i + 4 - as.length = 0 from by omega, List.getElem_cons_zero]
    apply hfaw (by omega)
    have hieq : as.length - 4 = i := by omega
    rw [hieq]
    exact List.getElem?_eq_getElem hi'

lemma faw_from_constraint {st : TimingState} {as : List Nat} {a : Nat}
    (hw : st.actWindow = as.reverse.take 4) (ha : fawConstraint st ≤ a) :
    4 ≤ as.length → ∀ v, as[as.length - 4]? = some v → v + tFAW ≤ a := by
  intro h4 v hv
  have h1 : st.actWindow[3]? = some v := by
    rw [hw, List.getElem?_take, if_pos (by omega : (3 : Nat) < 4)]
    have h3r : 3 < as.reverse.length := by simp; omega
    rw [List.getElem?_eq_getElem h3r, List.getElem_reverse]
    rw [show as.length - 4 = as.length - 1 - 3 from by omega,
      List.getElem?_eq_getElem (by omega : as.length - 1 - 3 < as.length)] at hv
    exact hv
  unfold fawConstraint at ha
  rw [h1] at ha
  exact ha

lemma actWindow_concat (as : List Nat) (a : Nat) :
    (a :: as.reverse.take 4).take 4 = (as ++ [a]).reverse.take 4 := by
  rw [List.reverse_append]
  simp [List.take_succ_cons, List.take_take]

lemma schedReads_spec (bg bk : Int) (a now : Nat) :
    ∀ (cols : List Int) (st : TimingState) (prev : Option Nat) (out : List ScheduledCommand)
      (st2 : TimingState) (lastR : Option Nat) (L : List ScheduledCommand),
      schedReads bg bk a now st prev cols = (out, st2, lastR) →
      ReadInv L st → L.Pairwise SymGap →
      (∀ x ∈ L, BankCase bg bk a prev x) →
      (L ++ out).Pairwise SymGap ∧
      ReadInv (L ++ out) st2 ∧
      st2.lastAct = st.lastAct ∧ st2.actWindow = st.actWindow ∧
      (∀ x ∈ out, x.kind = CmdKind.READ ∧ x.bank_group = bg ∧ x.bank = bk) ∧
      (lastR = none → out = [] ∧ prev = none) ∧
      (∀ lr, lastR = some lr →
        (∀ x ∈ out, x.issue_cycle ≤ lr) ∧ ∀ p, prev = some p → p ≤ lr) ∧
      (∀ x ∈ L ++ out, BankCase bg bk a lastR x) := by
  intro cols
  induction cols with
  | nil =>
    intro st prev out st2 lastR L heq hR hP hB
    simp only [schedReads] at heq
    injection heq with h1 h23
    injection h23 with h2 h3
    subst h1 h2 h3
    rw [List.append_nil]
    refine ⟨hP, hR, rfl, rfl, ?_, ?_, ?_, ?_⟩
    · simp
    · intro h
      exact ⟨rfl, h⟩
    · intro lr hlr
      refine ⟨by simp, fun p hp => ?_⟩
      rw [hp] at hlr
      injection hlr with h
      omega
    · simpa using hB
  | cons c cs ih =>
    intro st prev out st2 lastR L heq hR hP hB
    simp only [schedReads] at heq
    set r := max (earliest_read st bg a now) (prevBound prev) with hr_def
    obtain ⟨out1, st21, lastR1, hrest⟩ :
        ∃ o s l, schedReads bg bk a now (record_read st r bg) (some r) cs = (o, s, l) :=
      ⟨_, _, _, rfl⟩
    rw [hrest] at heq
    injection heq with h1 h23
    injection h23 with h2 h3
    subst h1 h2 h3
    have hr_read : readConstraint st bg ≤ r :=
      le_trans (le_max_right _ _) (le_max_left _ _)
    have hr_act : a + tRCD ≤ r :=
      le_trans (le_trans (le_max_right now _) (le_max_left _ _)) (le_max_left _ _)
    have hr_prev : ∀ p, prev = some p → p + 1 ≤ r := by
      intro p hp
      rw [hr_def, hp]
      exact le_max_right _ _
    clear hr_def
    set Rc : ScheduledCommand := ⟨CmdKind.READ, bg, bk, c, r⟩ with hRc
    have hsym : ∀ x ∈ L, SymGap x Rc := by
      intro x hx
      by_cases hbk : x.bank_group = bg ∧ x.bank = bk
      · rcases hB x hx hbk with ⟨hka, hca⟩ | hle14 | ⟨hkr, p, hp, hxp⟩
        · apply symGap_left
          · have happ : applicable x Rc = tRCD := by
              rw [app_same_bank hbk.1 hbk.2, hka]
            rw [happ, hca]
            exact hr_act
          · show x.issue_cycle < r
            have h14 : tRCD = 14 := rfl
            omega
        · apply symGap_left
          · have := applicable_le x Rc
            show x.issue_cycle + applicable x Rc ≤ Rc.issue_cycle
            show x.issue_cycle + applicable x Rc ≤ r
            have h14 : tRCD = 14 := rfl
            omega
          · show x.issue_cycle < r
            have h14 : tRCD = 14 := rfl
            omega
        · have hb4 := reads_bound hR hr_read x hx hkr
          apply symGap_left
          · have happ : applicable x Rc = tRDRD_sg := by
              rw [app_same_bank hbk.1 hbk.2, hkr]
            rw [happ]
            show x.issue_cycle + tRDRD_sg ≤ r
            have := hb4.2 hbk.1
            have h7 : tRDRD_sg = 7 := rfl
            omega
          · show x.issue_cycle < r
            have := hb4.1
            omega
      · by_cases hgr : x.bank_group = bg
        · by_cases hkr : x.kind = CmdKind.READ
          · have hb4 := reads_bound hR hr_read x hx hkr
            apply symGap_left
            · have happ : applicable x Rc = tRDRD_sg := by
                rw [app_group hbk hgr, hkr]
              rw [happ]
              show x.issue_cycle + tRDRD_sg ≤ r
              have := hb4.2 hgr
              have h7 : tRDRD_sg = 7 := rfl
              omega
            · show x.issue_cycle < r
              have := hb4.1
              omega
          · apply symGap_zero
            · rw [app_group hbk hgr]
              cases hxk : x.kind <;> simp [hxk] at hkr ⊢
            · have hbk' : ¬(Rc.bank_group = x.bank_group ∧ Rc.bank = x.bank) := by
                intro hcc
                exact hbk ⟨hcc.1.symm, hcc.2.symm⟩
              rw [app_group hbk' hgr.symm]
              cases hxk : x.kind <;> simp [hxk] at hkr ⊢
        · apply symGap_zero
          · exact app_diff hgr
          · exact app_diff (fun hc => hgr hc.symm)
    have hpair1 : (L ++ [Rc]).Pairwise SymGap := by
      rw [List.pairwise_append]
      refine ⟨hP, by simp, fun x hx y hy => ?_⟩
      rw [List.mem_singleton] at hy
      exact hy ▸ hsym x hx
    have hread1 : ReadInv (L ++ [Rc]) (record_read st r bg) := by
      constructor
      · intro hn
        simp [record_read] at hn
      · intro c' g' hs x hx hk
        have hcg : c' = r ∧ g' = bg := by
          simp [record_read] at hs
          exact ⟨hs.1.symm, hs.2.symm⟩
        obtain ⟨rfl, rfl⟩ := hcg
        rcases List.mem_append.mp hx with h | h
        · have hb4 := (reads_bound hR hr_read x h hk).1
          exact ⟨by omega, fun he => by omega, fun _ => by omega⟩
        · rw [List.mem_singleton] at h
          subst h
          exact ⟨le_refl _, fun _ => rfl, fun hlt => absurd hlt (lt_irrefl _)⟩
    have hbank1 : ∀ x ∈ L ++ [Rc], BankCase bg bk a (some r) x := by
      intro x hx
      rcases List.mem_append.mp hx with h | h
      · intro hxbk
        rcases hB x h hxbk with ⟨hka, hca⟩ | hle14 | ⟨hkr, p, hp, hxp⟩
        · exact Or.inl ⟨hka, hca⟩
        · exact Or.inr (Or.inl hle14)
        · refine Or.inr (Or.inr ⟨hkr, r, rfl, ?_⟩)
          have := hr_prev p hp
          omega
      · rw [List.mem_singleton] at h
        subst h
        intro _
        exact Or.inr (Or.inr ⟨rfl, r, rfl, le_refl _⟩)
    obtain ⟨ihP, ihR, ihA, ihW, ihK, ihN, ihS, ihB⟩ :=
      ih _ _ _ _ _ (L ++ [Rc]) hrest hread1 hpair1 hbank1
    have hassoc : L ++ Rc :: out1 = (L ++ [Rc]) ++ out1 := by simp
    refine ⟨by rw [hassoc]; exact ihP, by rw [hassoc]; exact ihR,
      by rw [ihA]; rfl, by rw [ihW]; rfl, ?_, ?_, ?_, ?_⟩
    · intro x hx
      rcases List.mem_cons.mp hx with rfl | h
      · exact ⟨rfl, rfl, rfl⟩
      · exact ihK x h
    · intro hn
      obtain ⟨-, hcon⟩ := ihN hn
      exact absurd hcon (by simp)
    · intro lr hlr
      obtain ⟨hall, hprev⟩ := ihS lr hlr
      have hrlr : r ≤ lr := hprev r rfl
      refine ⟨?_, ?_⟩
      · intro x hx
        rcases List.mem_cons.mp hx with rfl | h
        · exact hrlr
        · exact hall x h
      · intro p hp
        have := hr_prev p hp
        omega
    · intro x hx
      rw [hassoc] at hx
      exact ihB x hx

lemma schedRowGroup_spec (now : Nat) (st : TimingState) (lastPre : Option Nat) (g : RowGroup)
    (out : List ScheduledCommand) (st2 : TimingState) (pcyc : Nat)
    (L : List ScheduledCommand)
    (heq : schedRowGroup now st lastPre g = (out, st2, pcyc))
    (hR : ReadInv L st) (hA : ActInv L st) (hP : L.Pairwise SymGap)
    (hBn : lastPre = none → ∀ x ∈ L, ¬(x.bank_group = g.bank_group ∧ x.bank = g.bank))
    (hBs : ∀ p0, lastPre = some p0 → ∀ x ∈ L,
      x.bank_group = g.bank_group ∧ x.bank = g.bank → x.issue_cycle ≤ p0) :
    (L ++ out).Pairwise SymGap ∧
    ReadInv (L ++ out) st2 ∧ ActInv (L ++ out) st2 ∧
    (∀ x ∈ out, x.bank_group = g.bank_group ∧ x.bank = g.bank) ∧
    (∀ x ∈ L ++ out, x.bank_group = g.bank_group ∧ x.bank = g.bank → x.issue_cycle ≤ pcyc) := by
  simp only [schedRowGroup] at heq
  set a := earliest_activate st lastPre g.bank_group now with ha_def
  obtain ⟨reads, st1r, lastR, hreads⟩ :
      ∃ o s l, schedReads g.bank_group g.bank a now (record_activate st a g.bank_group)
        none g.cols = (o, s, l) := ⟨_, _, _, rfl⟩
  rw [hreads] at heq
  set p := earliest_precharge a (lastReadOr a lastR) now with hp_def
  injection heq with h1 h23
  injection h23 with h2 h3
  subst h1 h2 h3
  dsimp only
  -- facts about the chosen ACTIVATE cycle
  have ha_pre : ∀ p0, lastPre = some p0 → p0 + tRP ≤ a := by
    intro p0 hp0
    rw [ha_def]
    unfold earliest_activate
    rw [hp0]
    exact le_trans (le_max_right now _) (le_max_left _ _)
  have ha_act : actConstraint st g.bank_group ≤ a := by
    rw [ha_def]
    exact le_trans (le_max_left _ _) (le_max_right _ _)
  have ha_faw : fawConstraint st ≤ a := by
    rw [ha_def]
    exact le_trans (le_max_right _ _) (le_max_right _ _)
  clear ha_def
  set A : ScheduledCommand := ⟨CmdKind.ACTIVATE, g.bank_group, g.bank, g.row, a⟩ with hA_def
  have hacts := acts_bound hA ha_act
  -- the new ACTIVATE respects SymGap against everything already emitted
  have hsymA : ∀ x ∈ L, SymGap x A := by
    intro x hx
    by_cases hbk : x.bank_group = g.bank_group ∧ x.bank = g.bank
    · cases hlp : lastPre with
      | none => exact absurd hbk (hBn hlp x hx)
      | some p0 =>
        have hxp := hBs p0 hlp x hx hbk
        have hpa := ha_pre p0 hlp
        apply symGap_left
        · have hle := applicable_to_act_le x A rfl
          show x.issue_cycle + applicable x A ≤ a
          have h14 : tRP = 14 := rfl
          omega
        · show x.issue_cycle < a
          have h14 : tRP = 14 := rfl
          omega
    · by_cases hgr : x.bank_group = g.bank_group
      · by_cases hka : x.kind = CmdKind.ACTIVATE
        · have hxa := hacts x hx hka
          apply symGap_left
          · have happ : applicable x A = tRRD_sg := by
              rw [app_group hbk hgr, hka]
            rw [happ]
            show x.issue_cycle + tRRD_sg ≤ a
            have h4 : tRRD_sg = 4 := rfl
            omega
          · show x.issue_cycle < a
            omega
        · apply symGap_zero
          · rw [app_group hbk hgr]
            cases hxk : x.kind <;> simp [hxk] at hka ⊢
          · have hbk' : ¬(A.bank_group = x.bank_group ∧ A.bank = x.bank) := by
              intro hcc
              exact hbk ⟨hcc.1.symm, hcc.2.symm⟩
            rw [app_group hbk' hgr.symm]
            cases hxk : x.kind <;> simp [hxk] at hka ⊢
      · apply symGap_zero
        · exact app_diff hgr
        · exact app_diff (fun hc => hgr hc.symm)
  have hpairA : (L ++ [A]).Pairwise SymGap := by
    rw [List.pairwise_append]
    refine ⟨hP, by simp, fun x hx y hy => ?_⟩
    rw [List.mem_singleton] at hy
    exact hy ▸ hsymA x hx
  have hacL : actCycles (L ++ [A]) = actCycles L ++ [a] := by
    rw [actCycles_append, actCycles_single_act (show A.kind = CmdKind.ACTIVATE from rfl)]
  have hlastA : ∀ c, (actCycles L).getLast? = some c → c + 4 ≤ a := by
    intro c hc
    rcases hla : st.lastAct with - | ⟨c0, g0⟩
    · rw [hA.2.1 hla] at hc
      exact absurd hc (by simp)
    · have hc0 := (hA.2.2.1 c0 g0 hla).1
      rw [hc0] at hc
      injection hc with hcc
      have hca : c0 + (if g0 = g.bank_group then tRRD_sg else tRRD_dg) ≤ a := by
        have hh := ha_act
        unfold actConstraint at hh
        rw [hla] at hh
        exact hh
      have h4 : (if g0 = g.bank_group then tRRD_sg else tRRD_dg) = 4 := by split <;> rfl
      omega
  have hActA : ActInv (L ++ [A]) (record_activate st a g.bank_group) := by
    obtain ⟨hw, h0, h1, hg4, hs4⟩ := hA
    refine ⟨?_, ?_, ?_, ?_, ?_⟩
    · show (a :: st.actWindow).take 4 = (actCycles (L ++ [A])).reverse.take 4
      rw [hw, hacL, actWindow_concat]
    · intro hn
      exact absurd hn (by simp [record_activate])
    · intro c g' hcg
      have hca : c = a := by
        simp [record_activate] at hcg
        exact hcg.1.symm
      subst hca
      constructor
      · rw [hacL]
        simp
      · intro x hx hk
        rcases List.mem_append.mp hx with h | h
        · have := hacts x h hk
          omega
        · rw [List.mem_singleton] at h
          subst h
          exact le_refl _
    · rw [hacL]
      exact gap4_concat hg4 hlastA
    · rw [hacL]
      exact spaced4_concat hs4 (faw_from_constraint hw ha_faw)
  have hreadA : ReadInv (L ++ [A]) (record_activate st a g.bank_group) := by
    refine readInv_append_nonread (readInv_congr hR rfl) ?_
    intro x hx
    rw [List.mem_singleton] at hx
    subst hx
    intro hc
    exact CmdKind.noConfusion hc
  have hbankA : ∀ x ∈ L ++ [A], BankCase g.bank_group g.bank a none x := by
    intro x hx
    rcases List.mem_append.mp hx with h | h
    · intro hxbk
      cases hlp : lastPre with
      | none => exact absurd hxbk (hBn hlp x h)
      | some p0 =>
        have hxp := hBs p0 hlp x h hxbk
        have hpa := ha_pre p0 hlp
        refine Or.inr (Or.inl ?_)
        have h14a : tRP = 14 := rfl
        have h14b : tRCD = 14 := rfl
        omega
    · rw [List.mem_singleton] at h
      subst h
      intro _
      exact Or.inl ⟨rfl, rfl⟩
  obtain ⟨ihP, ihR, ihA, ihW, ihK, ihN, ihS, ihB⟩ :=
    schedReads_spec g.bank_group g.bank a now g.cols _ none _ _ _ (L ++ [A])
      hreads hreadA hpairA hbankA
  -- facts about the chosen PRECHARGE cycle
  have hp_ras : a + tRAS ≤ p := by
    rw [hp_def]
    exact le_trans (le_max_right now _) (le_max_left _ _)
  have hp_lro : lastReadOr a lastR + tRTP ≤ p := by
    rw [hp_def]
    exact le_max_right _ _
  have hp_lr : ∀ lr, lastR = some lr → lr + tRTP ≤ p := by
    intro lr hlr
    rw [hlr] at hp_lro
    exact hp_lro
  clear hp_def
  set P : ScheduledCommand := ⟨CmdKind.PRECHARGE, g.bank_group, g.bank, g.row, p⟩ with hP_def
  set L1 := (L ++ [A]) ++ reads with hL1_def
  have hsymP : ∀ x ∈ L1, SymGap x P := by
    intro x hx
    by_cases hbk : x.bank_group = g.bank_group ∧ x.bank = g.bank
    · rcases ihB x hx hbk with ⟨hka, hca⟩ | hle14 | ⟨hkr, lr, hlr, hxlr⟩
      · apply symGap_left
        · have happ : applicable x P = tRAS := by
            rw [app_same_bank hbk.1 hbk.2, hka]
          rw [happ, hca]
          exact hp_ras
        · show x.issue_cycle < p
          have h28 : tRAS = 28 := rfl
          omega
      · apply symGap_left
        · have := applicable_le x P
          show x.issue_cycle + applicable x P ≤ p
          have h28 : tRAS = 28 := rfl
          have h14 : tRCD = 14 := rfl
          omega
        · show x.issue_cycle < p
          have h28 : tRAS = 28 := rfl
          have h14 : tRCD = 14 := rfl
          omega
      · have hlrp := hp_lr lr hlr
        apply symGap_left
        · have happ : applicable x P = tRTP := by
            rw [app_same_bank hbk.1 hbk.2, hkr]
          rw [happ]
          show x.issue_cycle + tRTP ≤ p
          have h8 : tRTP = 8 := rfl
          omega
        · show x.issue_cycle < p
          have h8 : tRTP = 8 := rfl
          omega
    · apply symGap_zero
      · by_cases hgr : x.bank_group = g.bank_group
        · rw [app_group hbk hgr]
          cases hxk : x.kind <;> simp [hxk]
        · exact app_diff hgr
      · by_cases hgr : x.bank_group = g.bank_group
        · have hbk' : ¬(P.bank_group = x.bank_group ∧ P.bank = x.bank) := by
            intro hcc
            exact hbk ⟨hcc.1.symm, hcc.2.symm⟩
          rw [app_group hbk' hgr.symm]
        · exact app_diff (fun hc => hgr hc.symm)
  have hpairP : (L1 ++ [P]).Pairwise SymGap := by
    rw [List.pairwise_append]
    refine ⟨ihP, by simp, fun x hx y hy => ?_⟩
    rw [List.mem_singleton] at hy
    exact hy ▸ hsymP x hx
  have hassoc : L ++ ((A :: reads) ++ [P]) = L1 ++ [P] := by
    rw [hL1_def]
    simp
  refine ⟨?_, ?_, ?_, ?_, ?_⟩
  · rw [hassoc]
    exact hpairP
  · rw [hassoc]
    refine readInv_append_nonread ihR ?_
    intro x hx
    rw [List.mem_singleton] at hx
    subst hx
    intro hc
    exact CmdKind.noConfusion hc
  · rw [hassoc]
    refine actInv_append_nonact (actInv_congr ?_ ihA ihW) ?_
    · refine actInv_append_nonact hActA ?_
      intro x hx
      intro hc
      exact absurd ((ihK x hx).1) (by rw [hc]; intro hcc; exact CmdKind.noConfusion hcc)
    · intro x hx
      rw [List.mem_singleton] at hx
      subst hx
      intro hc
      exact CmdKind.noConfusion hc
  · intro x hx
    rcases List.mem_append.mp hx with h | h
    · rcases List.mem_cons.mp h with rfl | h2
      · exact ⟨rfl, rfl⟩
      · exact ⟨(ihK x h2).2.1, (ihK x h2).2.2⟩
    · rw [List.mem_singleton] at h
      subst h
      exact ⟨rfl, rfl⟩
  · intro x hx hxbk
    rw [hassoc] at hx
    rcases List.mem_append.mp hx with h | h
    · rcases ihB x h hxbk with ⟨hka, hca⟩ | hle14 | ⟨hkr, lr, hlr, hxlr⟩
      · have h28 : tRAS = 28 := rfl
        omega
      · have h28 : tRAS = 28 := rfl
        have h14 : tRCD = 14 := rfl
        omega
      · have hlrp := hp_lr lr hlr
        have h8 : tRTP = 8 := rfl
        omega
    · rw [List.mem_singleton] at h
      subst h
      exact le_refl _

lemma schedQueue_spec (now : Nat) (bg bk : Int) :
    ∀ (groups : List RowGroup) (st : TimingState) (lastPre : Option Nat)
      (out : List ScheduledCommand) (st2 : TimingState) (L : List ScheduledCommand),
      schedQueue now st lastPre groups = (out, st2) →
      (∀ g ∈ groups, g.bank_group = bg ∧ g.bank = bk) →
      ReadInv L st → ActInv L st → L.Pairwise SymGap →
      (lastPre = none → ∀ x ∈ L, ¬(x.bank_group = bg ∧ x.bank = bk)) →
      (∀ p0, lastPre = some p0 → ∀ x ∈ L,
        x.bank_group = bg ∧ x.bank = bk → x.issue_cycle ≤ p0) →
      (L ++ out).Pairwise SymGap ∧ ReadInv (L ++ out) st2 ∧ ActInv (L ++ out) st2 ∧
      (∀ x ∈ out, x.bank_group = bg ∧ x.bank = bk) := by
  intro groups
  induction groups with
  | nil =>
    intro st lastPre out st2 L heq hg hR hA hP hBn hBs
    simp only [schedQueue] at heq
    injection heq with h1 h2
    subst h1 h2
    rw [List.append_nil]
    exact ⟨hP, hR, hA, by simp⟩
  | cons g gs ih =>
    intro st lastPre out st2 L heq hg hR hA hP hBn hBs
    simp only [schedQueue] at heq
    obtain ⟨cmds, st1, pc, hrow⟩ :
        ∃ o s pp, schedRowGroup now st lastPre g = (o, s, pp) := ⟨_, _, _, rfl⟩
    rw [hrow] at heq
    dsimp only at heq
    obtain ⟨out1, st21, hrest⟩ :
        ∃ o s, schedQueue now st1 (some pc) gs = (o, s) := ⟨_, _, rfl⟩
    rw [hrest] at heq
    injection heq with h1 h2
    subst h1 h2
    have hgk := hg g (List.mem_cons_self g gs)
    obtain ⟨rP, rR, rA, rK, rB⟩ := schedRowGroup_spec now st lastPre g cmds st1 pc L hrow hR hA hP
      (by rw [hgk.1, hgk.2]; exact hBn) (by rw [hgk.1, hgk.2]; exact hBs)
    have hcmdsK : ∀ x ∈ cmds, x.bank_group = bg ∧ x.bank = bk := by
      intro x hx
      obtain ⟨h1, h2⟩ := rK x hx
      exact ⟨h1.trans hgk.1, h2.trans hgk.2⟩
    obtain ⟨iP, iR, iA, iK⟩ := ih st1 (some pc) out1 st21 (L ++ cmds) hrest
      (fun g' hg' => hg g' (List.mem_cons_of_mem _ hg')) rR rA rP
      (fun hc => absurd hc (by simp))
      (by
        intro p0 hp0 x hx hxbk
        injection hp0 with hpc
        subst hpc
        exact rB x hx ⟨hxbk.1.trans hgk.1.symm, hxbk.2.trans hgk.2.symm⟩)
    have hassoc : L ++ (cmds ++ out1) = (L ++ cmds) ++ out1 := (List.append_assoc L cmds out1).symm
    refine ⟨by rw [hassoc]; exact iP, by rw [hassoc]; exact iR, by rw [hassoc]; exact iA, ?_⟩
    intro x hx
    rcases List.mem_append.mp hx with h | h
    · exact hcmdsK x h
    · exact iK x h

lemma schedQueues_spec (now : Nat) (rgs : List RowGroup) :
    ∀ (qs : List BankQueue) (st : TimingState) (out : List ScheduledCommand)
      (st2 : TimingState) (L : List ScheduledCommand),
      schedQueues now rgs st qs = (out, st2) →
      ReadInv L st → ActInv L st → L.Pairwise SymGap →
      ((qs.map qKey).Nodup) →
      (∀ q ∈ qs, ∀ g ∈ queueGroups rgs q, g.bank_group = q.bank_group ∧ g.bank = q.bank) →
      (∀ x ∈ L, ∀ q ∈ qs, ¬(x.bank_group = q.bank_group ∧ x.bank = q.bank)) →
      (L ++ out).Pairwise SymGap ∧ ReadInv (L ++ out) st2 ∧ ActInv (L ++ out) st2 ∧
      (∀ x ∈ out, ∃ q ∈ qs, x.bank_group = q.bank_group ∧ x.bank = q.bank) := by
  intro qs
  induction qs with
  | nil =>
    intro st out st2 L heq hR hA hP hnd hqg hL
    simp only [schedQueues] at heq
    injection heq with h1 h2
    subst h1 h2
    rw [List.append_nil]
    exact ⟨hP, hR, hA, by simp⟩
  | cons q qs ih =>
    intro st out st2 L heq hR hA hP hnd hqg hL
    simp only [schedQueues] at heq
    obtain ⟨cmds, st1, hq1⟩ :
        ∃ o s, schedQueue now st none (queueGroups rgs q) = (o, s) := ⟨_, _, rfl⟩
    rw [hq1] at heq
    dsimp only at heq
    obtain ⟨out1, st21, hrest⟩ :
        ∃ o s, schedQueues now rgs st1 qs = (o, s) := ⟨_, _, rfl⟩
    rw [hrest] at heq
    injection heq with h1 h2
    subst h1 h2
    obtain ⟨q1P, q1R, q1A, q1K⟩ := schedQueue_spec now q.bank_group q.bank
      (queueGroups rgs q) st none cmds st1 L hq1
      (hqg q (List.mem_cons_self q qs)) hR hA hP
      (fun _ x hx => hL x hx q (List.mem_cons_self q qs))
      (fun p0 hp0 => Option.noConfusion hp0)
    have hqnotin : qKey q ∉ qs.map qKey := by
      rw [List.map_cons, List.nodup_cons] at hnd
      exact hnd.1
    obtain ⟨iP, iR, iA, iK⟩ := ih st1 out1 st21 (L ++ cmds) hrest q1R q1A q1P
      (by rw [List.map_cons, List.nodup_cons] at hnd; exact hnd.2)
      (fun q' hq' => hqg q' (List.mem_cons_of_mem _ hq'))
      (by
        intro x hx q' hq' hxk
        rcases List.mem_append.mp hx with h | h
        · exact hL x h q' (List.mem_cons_of_mem _ hq') hxk
        · obtain ⟨hk1, hk2⟩ := q1K x h
          apply hqnotin
          have : qKey q = qKey q' := by
            unfold qKey
            rw [← hk1, ← hk2, hxk.1, hxk.2]
          rw [this]
          exact List.mem_map.mpr ⟨q', hq', rfl⟩)
    have hassoc : L ++ (cmds ++ out1) = (L ++ cmds) ++ out1 := (List.append_assoc L cmds out1).symm
    refine ⟨by rw [hassoc]; exact iP, by rw [hassoc]; exact iR, by rw [hassoc]; exact iA, ?_⟩
    intro x hx
    rcases List.mem_append.mp hx with h | h
    · exact ⟨q, List.mem_cons_self q qs, q1K x h⟩
    · obtain ⟨q', hq', hk⟩ := iK x h
      exact ⟨q', List.mem_cons_of_mem _ hq', hk⟩

/-! ### Soundness of the full pipeline -/

lemma readInv_nil_init : ReadInv [] initTiming :=
  ⟨fun _ x hx => absurd hx (List.not_mem_nil x), fun _ _ hs => Option.noConfusion hs⟩

lemma actInv_nil_init : ActInv [] initTiming :=
  ⟨rfl, fun _ => rfl, fun _ _ hs => absurd hs (Option.noConfusion),
    List.chain'_nil, fun _ h => absurd h (by simp [actCycles])⟩

/-- The emission-order command list of every batch is pairwise timing-sound,
and its activate cycles are 4-spaced consecutively and tFAW-spaced at distance
four. -/
lemma scheduler_commands_sound (b : List Request) :
    (scheduler_commands b).Pairwise SymGap ∧
    Gap4 (actCycles (scheduler_commands b)) ∧ Spaced4 (actCycles (scheduler_commands b)) := by
  unfold scheduler_commands
  obtain ⟨out, st2, heq⟩ :
      ∃ o s, schedQueues 0 (alias_batch b) initTiming (bank_conflicts (alias_batch b)) = (o, s) :=
    ⟨_, _, rfl⟩
  rw [heq]
  dsimp only
  have hnd : ((bank_conflicts (alias_batch b)).map qKey).Nodup := by
    rw [(bank_conflicts_ok (alias_batch b)).1]
    exact firstSeen_nodup _
  obtain ⟨hP, hR, hA, -⟩ := schedQueues_spec 0 (alias_batch b) (bank_conflicts (alias_batch b))
    initTiming out st2 [] heq readInv_nil_init actInv_nil_init (by simp) hnd
    (fun q hq => queueGroups_keys b q hq) (fun x hx => absurd hx (List.not_mem_nil x))
  rw [List.nil_append] at hP hA
  exact ⟨hP, hA.2.2.2.1, hA.2.2.2.2⟩

lemma length_filter_comp {α β : Type} (f : α → β) (p : β → Bool) (l : List α) :
    (l.filter (fun x => p (f x))).length = ((l.map f).filter p).length := by
  induction l with
  | nil => rfl
  | cons x l ih =>
    by_cases h : p (f x) <;> simp [List.filter_cons, h, ih]

/-- In a sorted list whose entries four apart differ by at least tFAW, fewer
than five entries lie in any window of tFAW cycles. -/
lemma window_bound {as : List Nat} (hsorted : List.Sorted (· ≤ ·) as) (hsp : Spaced4 as)
    (w : Nat) :
    (as.filter (fun c => decide (w ≤ c ∧ c < w + tFAW))).length ≤ 4 := by
  by_contra hc
  push_neg at hc
  have h5 : 5 ≤ (as.filter (fun c => decide (w ≤ c ∧ c < w + tFAW))).length := hc
  set f := as.filter (fun c => decide (w ≤ c ∧ c < w + tFAW)) with hf
  set g := f.take 5 with hg
  have hglen : g.length = 5 := by
    rw [hg, List.length_take]
    omega
  have hsub : g.Sublist as := (List.take_sublist 5 f).trans (List.filter_sublist as)
  obtain ⟨emb, hemb⟩ := List.sublist_iff_exists_fin_orderEmbedding_get_eq.mp hsub
  have h0 : (0 : Nat) < g.length := by omega
  have h1 : (1 : Nat) < g.length := by omega
  have h2 : (2 : Nat) < g.length := by omega
  have h3 : (3 : Nat) < g.length := by omega
  have h4 : (4 : Nat) < g.length := by omega
  have hm01 : emb ⟨0, h0⟩ < emb ⟨1, h1⟩ := emb.strictMono (by simp [Fin.lt_def])
  have hm12 : emb ⟨1, h1⟩ < emb ⟨2, h2⟩ := emb.strictMono (by simp [Fin.lt_def])
  have hm23 : emb ⟨2, h2⟩ < emb ⟨3, h3⟩ := emb.strictMono (by simp [Fin.lt_def])
  have hm34 : emb ⟨3, h3⟩ < emb ⟨4, h4⟩ := emb.strictMono (by simp [Fin.lt_def])
  rw [Fin.lt_def] at hm01 hm12 hm23 hm34
  have hj : (emb ⟨0, h0⟩).val + 4 ≤ (emb ⟨4, h4⟩).val := by omega
  have hjlen : (emb ⟨4, h4⟩).val < as.length := (emb ⟨4, h4⟩).isLt
  have hj04 : (emb ⟨0, h0⟩).val + 4 < as.length := by omega
  have hspaced := hsp (emb ⟨0, h0⟩).val hj04
  -- the middle step: sortedness between positions j0+4 and j4
  have hmid : as[(emb ⟨0, h0⟩).val + 4] ≤ as[(emb ⟨4, h4⟩).val] := by
    rcases Nat.lt_or_ge ((emb ⟨0, h0⟩).val + 4) (emb ⟨4, h4⟩).val with hlt | hge
    · exact List.pairwise_iff_getElem.mp hsorted _ _ _ _ hlt
    · have heq4 : (emb ⟨0, h0⟩).val + 4 = (emb ⟨4, h4⟩).val := by omega
      have hq : as[(emb ⟨0, h0⟩).val + 4]? = as[(emb ⟨4, h4⟩).val]? := by rw [heq4]
      rw [List.getElem?_eq_getElem hj04, List.getElem?_eq_getElem hjlen] at hq
      exact le_of_eq (Option.some.inj hq)
  -- membership of the end points in the filtered window
  have hmem0 : g.get ⟨0, h0⟩ ∈ f := List.take_subset 5 f (List.get_mem g 0 h0)
  have hmem4 : g.get ⟨4, h4⟩ ∈ f := List.take_subset 5 f (List.get_mem g 4 h4)
  rw [hf] at hmem0 hmem4
  have hw0 : w ≤ g.get ⟨0, h0⟩ ∧ g.get ⟨0, h0⟩ < w + tFAW := by
    have := List.of_mem_filter hmem0
    simpa using this
  have hw4 : w ≤ g.get ⟨4, h4⟩ ∧ g.get ⟨4, h4⟩ < w + tFAW := by
    have := List.of_mem_filter hmem4
    simpa using this
  have he0 : g.get ⟨0, h0⟩ = as[(emb ⟨0, h0⟩).val] := by
    rw [hemb ⟨0, h0⟩]
    simp [List.get_eq_getElem]
  have he4 : g.get ⟨4, h4⟩ = as[(emb ⟨4, h4⟩).val] := by
    rw [hemb ⟨4, h4⟩]
    simp [List.get_eq_getElem]
  rw [he0] at hw0
  rw [he4] at hw4
  omega

/-- The activate cycles of the sorted output coincide with the emission-order
activate cycles. -/
lemma actCycles_output (b : List Request) :
    actCycles (scheduler_output b) = actCycles (scheduler_commands b) := by
  have hperm : (scheduler_output b).Perm (scheduler_commands b) :=
    List.perm_insertionSort cmdLE (scheduler_commands b)
  have hpermA : (actCycles (scheduler_output b)).Perm (actCycles (scheduler_commands b)) :=
    (hperm.filter _).map _
  have hg4 := (scheduler_commands_sound b).2.1
  haveI : IsTrans Nat fun a c => a + 4 ≤ c := ⟨fun a b c h1 h2 => by omega⟩
  have hsortedE : List.Sorted (· ≤ ·) (actCycles (scheduler_commands b)) := by
    have := (List.chain'_iff_pairwise).mp hg4
    exact this.imp (fun h => by omega)
  have hsortedS : List.Sorted (· ≤ ·) (actCycles (scheduler_output b)) := by
    have hs : List.Sorted cmdLE (scheduler_output b) :=
      List.sorted_insertionSort cmdLE (scheduler_commands b)
    have hsf := hs.filter (fun x => decide (x.kind = CmdKind.ACTIVATE))
    exact List.pairwise_map.mpr (hsf.imp (fun h => h))
  exact List.eq_of_perm_of_sorted hpermA hsortedS hsortedE

/-- Timing soundness of the sorted output: all ordered pairs meet the
applicable parameter of `src/controller.c`, and no window of tFAW cycles
contains five ACTIVATE commands. -/
lemma scheduler_output_sound (b : List Request) :
    (scheduler_output b).Pairwise
      (fun x y => x.issue_cycle + applicable x y ≤ y.issue_cycle) ∧
    (∀ w : Nat, ((scheduler_output b).filter (fun x =>
      decide (x.kind = CmdKind.ACTIVATE ∧ w ≤ x.issue_cycle ∧
        x.issue_cycle < w + tFAW))).length ≤ 4) := by
  have hperm : (scheduler_output b).Perm (scheduler_commands b) :=
    List.perm_insertionSort cmdLE (scheduler_commands b)
  obtain ⟨hpairE, hg4, hsp4⟩ := scheduler_commands_sound b
  have hpairS : (scheduler_output b).Pairwise SymGap :=
    (hperm.pairwise_iff (fun h => symGap_symm h)).mpr hpairE
  have hsortedS : List.Sorted cmdLE (scheduler_output b) :=
    List.sorted_insertionSort cmdLE (scheduler_commands b)
  constructor
  · exact (hpairS.and hsortedS).imp (fun h => h.1.1 h.2)
  · intro w
    have hsplit : ((scheduler_output b).filter (fun x =>
        decide (x.kind = CmdKind.ACTIVATE ∧ w ≤ x.issue_cycle ∧
          x.issue_cycle < w + tFAW))).length
        = ((actCycles (scheduler_output b)).filter
            (fun c => decide (w ≤ c ∧ c < w + tFAW))).length := by
      have e1 : ((scheduler_output b).filter (fun x =>
          decide (x.kind = CmdKind.ACTIVATE ∧ w ≤ x.issue_cycle ∧
            x.issue_cycle < w + tFAW)))
          = (((scheduler_output b).filter (fun x => decide (x.kind = CmdKind.ACTIVATE))).filter
              (fun x => decide (w ≤ x.issue_cycle ∧ x.issue_cycle < w + tFAW))) := by
        rw [List.filter_filter]
        apply List.filter_congr
        intro x _
        simp [Bool.and_comm]
      rw [e1]
      exact length_filter_comp ScheduledCommand.issue_cycle
        (fun c => decide (w ≤ c ∧ c < w + tFAW)) _
    rw [hsplit, actCycles_output]
    haveI : IsTrans Nat fun a c => a + 4 ≤ c := ⟨fun a b c h1 h2 => by omega⟩
    have hsortedE : List.Sorted (· ≤ ·) (actCycles (scheduler_commands b)) := by
      have := (List.chain'_iff_pairwise).mp hg4
      exact this.imp (fun h => by omega)
    exact window_bound hsortedE hsp4 w

/-! ### Size bounds: the computation is bounded by BATCHSIZE -/

lemma aliasInsert_length (r : Request) (n : Nat) :
    ∀ gs : List RowGroup, (aliasInsert r n gs).length ≤ gs.length + 1 := by
  intro gs
  induction gs with
  | nil => simp [aliasInsert]
  | cons g gs ih =>
    rw [aliasInsert]
    split
    · simp
    · simpa using Nat.succ_le_succ ih

lemma alias_batch_length (b : List Request) : (alias_batch b).length ≤ b.length := by
  induction b using List.reverseRecOn with
  | nil => simp [alias_batch]
  | append_singleton b r ih =>
    have hstep : alias_batch (b ++ [r]) = aliasStep (alias_batch b) r := by
      unfold alias_batch
      rw [List.foldl_append]
      rfl
    rw [hstep]
    calc (aliasStep (alias_batch b) r).length
        ≤ (alias_batch b).length + 1 := aliasInsert_length r _ _
      _ ≤ b.length + 1 := Nat.succ_le_succ ih
      _ = (b ++ [r]).length := by simp

lemma aliasInsert_cols_sum (r : Request) (n : Nat) :
    ∀ gs : List RowGroup,
      ((aliasInsert r n gs).map (fun g => g.cols.length)).sum
        = ((gs.map (fun g => g.cols.length)).sum) + 1 := by
  intro gs
  induction gs with
  | nil => simp [aliasInsert]
  | cons g gs ih =>
    rw [aliasInsert]
    split
    · simp
      omega
    · simp only [List.map_cons, List.sum_cons, ih]
      omega

lemma alias_batch_cols_sum (b : List Request) :
    ((alias_batch b).map (fun g => g.cols.length)).sum = b.length := by
  induction b using List.reverseRecOn with
  | nil => simp [alias_batch]
  | append_singleton b r ih =>
    have hstep : alias_batch (b ++ [r]) = aliasStep (alias_batch b) r := by
      unfold alias_batch
      rw [List.foldl_append]
      rfl
    rw [hstep]
    unfold aliasStep
    rw [aliasInsert_cols_sum, ih]
    simp

lemma bankInsert_length (g : RowGroup) :
    ∀ qs : List BankQueue, (bankInsert g qs).length ≤ qs.length + 1 := by
  intro qs
  induction qs with
  | nil => simp [bankInsert]
  | cons q qs ih =>
    rw [bankInsert]
    split
    · simp
    · simpa using Nat.succ_le_succ ih

lemma bank_conflicts_length (gs : List RowGroup) :
    (bank_conflicts gs).length ≤ gs.length := by
  induction gs using List.reverseRecOn with
  | nil => simp [bank_conflicts]
  | append_singleton gs g ih =>
    have hstep : bank_conflicts (gs ++ [g]) = bankStep (bank_conflicts gs) g := by
      unfold bank_conflicts
      rw [List.foldl_append]
      rfl
    rw [hstep]
    calc (bankStep (bank_conflicts gs) g).length
        ≤ (bank_conflicts gs).length + 1 := bankInsert_length g _
      _ ≤ gs.length + 1 := Nat.succ_le_succ ih
      _ = (gs ++ [g]).length := by simp

lemma schedReads_out_length (bg bk : Int) (a now : Nat) :
    ∀ (cols : List Int) (st : TimingState) (prev : Option Nat),
      (schedReads bg bk a now st prev cols).1.length = cols.length := by
  intro cols
  induction cols with
  | nil => intro st prev; rfl
  | cons c cs ih =>
    intro st prev
    simp only [schedReads, List.length_cons]
    rw [ih]

lemma schedRowGroup_out_length (now : Nat) (st : TimingState) (lastPre : Option Nat)
    (g : RowGroup) : (schedRowGroup now st lastPre g).1.length = g.cols.length + 2 := by
  simp only [schedRowGroup]
  rw [List.length_append, List.length_cons, schedReads_out_length]
  simp

lemma schedQueue_out_length (now : Nat) :
    ∀ (groups : List RowGroup) (st : TimingState) (lastPre : Option Nat),
      (schedQueue now st lastPre groups).1.length
        = (groups.map (fun g => g.cols.length + 2)).sum := by
  intro groups
  induction groups with
  | nil => intro st lastPre; rfl
  | cons g gs ih =>
    intro st lastPre
    simp only [schedQueue, List.length_append, List.map_cons, List.sum_cons]
    rw [schedRowGroup_out_length, ih]

lemma schedQueues_out_length (now : Nat) (rgs : List RowGroup) :
    ∀ (qs : List BankQueue) (st : TimingState),
      (schedQueues now rgs st qs).1.length
        = (qs.map (fun q => ((queueGroups rgs q).map (fun g => g.cols.length + 2)).sum)).sum := by
  intro qs
  induction qs with
  | nil => intro st; rfl
  | cons q qs ih =>
    intro st
    simp only [schedQueues, List.length_append, List.map_cons, List.sum_cons]
    rw [schedQueue_out_length, ih]

lemma sum_map_add {κ : Type} (K : List κ) (u v : κ → Nat) :
    (K.map (fun k => u k + v k)).sum = (K.map u).sum + (K.map v).sum := by
  induction K with
  | nil => rfl
  | cons k K ih =>
    simp only [List.map_cons, List.sum_cons, ih]
    omega

lemma sum_map_indicator {κ : Type} [DecidableEq κ] (k0 : κ) (v : Nat) :
    ∀ K : List κ, K.Nodup → k0 ∈ K →
      (K.map (fun k => if k0 = k then v else 0)).sum = v := by
  intro K
  induction K with
  | nil => intro _ hm; simp at hm
  | cons k K ih =>
    intro hnd hm
    rw [List.nodup_cons] at hnd
    by_cases hk : k0 = k
    · subst hk
      have hz : (K.map (fun k => if k0 = k then v else 0)).sum = 0 := by
        apply List.sum_eq_zero
        intro x hx
        obtain ⟨k', hk', rfl⟩ := List.mem_map.mp hx
        rw [if_neg (fun hc : k0 = k' => hnd.1 (by rw [hc]; exact hk'))]
      simp only [List.map_cons, List.sum_cons]
      simp [hz]
    · simp only [List.map_cons, List.sum_cons, if_neg hk]
      rw [ih hnd.2 ((List.mem_cons.mp hm).resolve_left hk)]
      omega

lemma sum_filter_partition {α κ : Type} [DecidableEq κ] (key : α → κ) (f : α → Nat) :
    ∀ (l : List α) (K : List κ), K.Nodup → (∀ x ∈ l, key x ∈ K) →
      (K.map (fun k => ((l.filter (fun x => decide (key x = k))).map f).sum)).sum
        = (l.map f).sum := by
  intro l
  induction l with
  | nil =>
    intro K _ _
    simp
  | cons x l ih =>
    intro K hnd hcov
    have hsplit : ∀ k : κ,
        (((x :: l).filter (fun y => decide (key y = k))).map f).sum
          = (if key x = k then f x else 0)
            + ((l.filter (fun y => decide (key y = k))).map f).sum := by
      intro k
      rw [List.filter_cons]
      by_cases hk : key x = k
      · simp [hk]
      · simp [hk]
    rw [List.map_congr_left (fun k _ => hsplit k), sum_map_add,
      sum_map_indicator (key x) (f x) K hnd (hcov x (List.mem_cons_self x l)),
      ih K hnd (fun y hy => hcov y (List.mem_cons_of_mem x hy))]
    simp

/-- The emission-order command count: two commands (ACTIVATE, PRECHARGE) per
row group plus one READ per batch entry. -/
lemma scheduler_commands_length (b : List Request) :
    (scheduler_commands b).length = 2 * (alias_batch b).length + b.length := by
  unfold scheduler_commands
  rw [schedQueues_out_length]
  have hqg : ∀ q ∈ bank_conflicts (alias_batch b),
      ((queueGroups (alias_batch b) q).map (fun g => g.cols.length + 2)).sum
        = (((alias_batch b).filter (fun g => decide (gbKey g = qKey q))).map
            (fun g => g.cols.length + 2)).sum := by
    intro q hq
    rw [queueGroups_eq_filter b q hq]
  rw [List.map_congr_left hqg]
  have hmm : (bank_conflicts (alias_batch b)).map (fun q =>
      (((alias_batch b).filter (fun g => decide (gbKey g = qKey q))).map
        (fun g => g.cols.length + 2)).sum)
      = ((bank_conflicts (alias_batch b)).map qKey).map (fun k =>
        (((alias_batch b).filter (fun g => decide (gbKey g = k))).map
          (fun g => g.cols.length + 2)).sum) := by
    rw [List.map_map]
    rfl
  rw [hmm]
  have hnd : ((bank_conflicts (alias_batch b)).map qKey).Nodup := by
    rw [(bank_conflicts_ok (alias_batch b)).1]
    exact firstSeen_nodup _
  have hcov : ∀ g ∈ alias_batch b, gbKey g ∈ (bank_conflicts (alias_batch b)).map qKey := by
    intro g hg
    rw [(bank_conflicts_ok (alias_batch b)).1, mem_firstSeen]
    exact List.mem_map.mpr ⟨g, hg, rfl⟩
  rw [sum_filter_partition gbKey (fun g => g.cols.length + 2) (alias_batch b) _ hnd hcov]
  rw [sum_map_add (alias_batch b) (fun g => g.cols.length) (fun _ => 2)]
  rw [alias_batch_cols_sum]
  have hconst : ((alias_batch b).map (fun _ => 2)).sum = 2 * (alias_batch b).length := by
    induction alias_batch b with
    | nil => rfl
    | cons g gs ih =>
      simp only [List.map_cons, List.sum_cons, ih, List.length_cons]
      omega
  rw [hconst]
  omega

lemma aliasInsert_data {r r' : Request} (h : reqData r = reqData r') (n : Nat) :
    ∀ gs : List RowGroup, aliasInsert r n gs = aliasInsert r' n gs := by
  have hf : r.bank_group = r'.bank_group ∧ r.bank = r'.bank ∧ r.row = r'.row ∧ r.col = r'.col := by
    unfold reqData at h
    simp [Prod.ext_iff] at h
    exact h
  intro gs
  induction gs with
  | nil =>
    simp only [aliasInsert]
    rw [hf.1, hf.2.1, hf.2.2.1, hf.2.2.2]
  | cons g gs ih =>
    simp only [aliasInsert]
    rw [hf.1, hf.2.1, hf.2.2.1, hf.2.2.2, ih]

lemma foldl_alias_data :
    ∀ (b b' : List Request) (gs : List RowGroup), b.map reqData = b'.map reqData →
      b.foldl aliasStep gs = b'.foldl aliasStep gs := by
  intro b
  induction b with
  | nil =>
    intro b' gs h
    cases b' with
    | nil => rfl
    | cons r' b' => simp at h
  | cons r b ih =>
    intro b' gs h
    cases b' with
    | nil => simp at h
    | cons r' b'2 =>
      rw [List.map_cons, List.map_cons] at h
      injection h with h1 h2
      rw [List.foldl_cons, List.foldl_cons,
        show aliasStep gs r = aliasStep gs r' from aliasInsert_data h1 gs.length gs]
      exact ih b'2 _ h2

lemma alias_batch_data {b b' : List Request} (h : b.map reqData = b'.map reqData) :
    alias_batch b = alias_batch b' :=
  foldl_alias_data b b' [] h

/-! ### The claims -/

/-- C1: for every batch, every ordered pair of commands in the emitted
(sorted) command sequence is separated by at least the applicable timing
parameter (nonzero exactly for same-bank pairs and same-bank-group
ACTIVATE-ACTIVATE / READ-READ pairs), and no rolling window of tFAW cycles
contains five ACTIVATE commands. -/
theorem C1_timing_soundness (batch : List Request) :
    (scheduler_output batch).Pairwise
      (fun x y => x.issue_cycle + applicable x y ≤ y.issue_cycle) ∧
    ∀ w : Nat, ((scheduler_output batch).filter (fun x =>
      decide (x.kind = CmdKind.ACTIVATE ∧ w ≤ x.issue_cycle ∧
        x.issue_cycle < w + tFAW))).length ≤ 4 :=
  scheduler_output_sound batch

/-- C2: the Row Aliaser puts two valid requests in the same RowGroup iff
their bank_group, bank and row coincide; RowGroup order and ids follow
first-seen order (1-based, dense), and columns appear in batch-arrival order
with duplicates preserved. -/
theorem C2_row_aliaser (b : List Request) (ri rj : Request)
    (hi : ri ∈ b) (_hj : rj ∈ b) (_hvi : ri.valid ≠ 0) (_hvj : rj.valid ≠ 0) :
    rowAliaserContract b ri rj := by
  obtain ⟨hkeys, hids, hcols, -⟩ := alias_batch_ok b
  refine ⟨?_, hkeys ▸ firstSeen_nodup _, hkeys, hids, hcols⟩
  constructor
  · rintro ⟨g, hg, h1, h2⟩
    exact h1.trans h2.symm
  · intro he
    have hmem : rKey ri ∈ (alias_batch b).map gKey := by
      rw [hkeys, mem_firstSeen]
      exact List.mem_map.mpr ⟨ri, hi, rfl⟩
    obtain ⟨g, hg, hkg⟩ := List.mem_map.mp hmem
    exact ⟨g, hg, hkg.symm, he.symm.trans hkg.symm⟩

/-- C2 witness: the contract instantiated on the reference batch and its two
requests to row 1 of bank (0,0). -/
theorem C2_row_aliaser_witness :
    (⟨1, 0, 0, 1, 6⟩ : Request) ∈ refBatch ∧ (⟨1, 0, 0, 1, 3⟩ : Request) ∈ refBatch ∧
    rowAliaserContract refBatch ⟨1, 0, 0, 1, 6⟩ ⟨1, 0, 0, 1, 3⟩ :=
  ⟨by decide, by decide,
    C2_row_aliaser refBatch ⟨1, 0, 0, 1, 6⟩ ⟨1, 0, 0, 1, 3⟩
      (by decide) (by decide) (by decide) (by decide)⟩

/-- C3 (code behaviour at the failing input): the aliasing loop of
`src/controller.c` never reads the `valid` flag, so a batch of five invalid
entries still produces a RowGroup, with all five columns in it — the claim
"invalid entries are skipped entirely" and "an all-invalid batch yields zero
RowGroups" does not hold for the code. -/
theorem C3_invalid_entries_not_skipped :
    (∀ r ∈ allInvalidBatch, r.valid = 0) ∧
    alias_batch allInvalidBatch ≠ [] ∧
    (alias_batch allInvalidBatch).length = 1 ∧
    (∀ g ∈ alias_batch allInvalidBatch, g.cols.length = BATCHSIZE) := by
  decide

/-- C4: the Bank Conflict Grouper puts two RowGroups in the same BankQueue
iff their bank_group and bank coincide; BankQueue order follows first-seen
order and each BankQueue lists its RowGroups in Row Aliaser order. -/
theorem C4_bank_grouper (gs : List RowGroup) (gi gj : RowGroup)
    (hi : gi ∈ gs) (_hj : gj ∈ gs) : bankGrouperContract gs gi gj := by
  obtain ⟨hkeys, hrows, -⟩ := bank_conflicts_ok gs
  refine ⟨?_, hkeys ▸ firstSeen_nodup _, hkeys, hrows⟩
  constructor
  · rintro ⟨q, hq, h1, h2⟩
    exact h1.trans h2.symm
  · intro he
    have hmem : gbKey gi ∈ (bank_conflicts gs).map qKey := by
      rw [hkeys, mem_firstSeen]
      exact List.mem_map.mpr ⟨gi, hi, rfl⟩
    obtain ⟨q, hq, hkq⟩ := List.mem_map.mp hmem
    exact ⟨q, hq, hkq.symm, he.symm.trans hkq.symm⟩

/-- C4 witness: the contract instantiated on the aliased reference batch and
its two row groups of bank (0,0). -/
theorem C4_bank_grouper_witness :
    (⟨true, 0, 0, 1, [6, 3], 1⟩ : RowGroup) ∈ alias_batch refBatch ∧
    (⟨true, 0, 0, 2, [5], 2⟩ : RowGroup) ∈ alias_batch refBatch ∧
    bankGrouperContract (alias_batch refBatch)
      ⟨true, 0, 0, 1, [6, 3], 1⟩ ⟨true, 0, 0, 2, [5], 2⟩ :=
  ⟨by decide, by decide,
    C4_bank_grouper (alias_batch refBatch) ⟨true, 0, 0, 1, [6, 3], 1⟩
      ⟨true, 0, 0, 2, [5], 2⟩ (by decide) (by decide)⟩

/-- C5: on the reference batch of `main`, the program produces RowGroups
row1→[6,3], row2→[5], row4→[4] for (bg0,b0) and row2→[2] for (bg2,b1), two
BankQueues ((0,0) with rows 1,2,3 and (2,1) with row 4), and a schedule with
exactly 4 ACTIVATE, 5 READ and 4 PRECHARGE commands. -/
theorem C5_reference_batch :
    alias_batch refBatch =
      [⟨true, 0, 0, 1, [6, 3], 1⟩, ⟨true, 0, 0, 2, [5], 2⟩,
       ⟨true, 0, 0, 4, [4], 3⟩, ⟨true, 2, 1, 2, [2], 4⟩] ∧
    bank_conflicts (alias_batch refBatch) = [⟨true, 0, 0, [1, 2, 3]⟩, ⟨true, 2, 1, [4]⟩] ∧
    ((scheduler_output refBatch).filter
      (fun x => decide (x.kind = CmdKind.ACTIVATE))).length = 4 ∧
    ((scheduler_output refBatch).filter
      (fun x => decide (x.kind = CmdKind.READ))).length = 5 ∧
    ((scheduler_output refBatch).filter
      (fun x => decide (x.kind = CmdKind.PRECHARGE))).length = 4 := by
  decide

/-- C6 (code behaviour at the failing input): the multiset union of all
RowGroup columns is not the valid requests' columns — the invalid entry with
column 7 contributes a column, because the aliasing loop never reads
`valid`. -/
theorem C6_invalid_entries_contribute :
    (∀ r ∈ mixedBatch, r.col = 7 → r.valid = 0) ∧
    (7 : Int) ∈ colsUnion (alias_batch mixedBatch) ∧
    colsUnion (alias_batch mixedBatch)
      ≠ (mixedBatch.filter (fun r => decide (r.valid ≠ 0))).map Request.col := by
  decide

/-- C7: over-capacity batches fail with CapacityExceeded before aliasing, a
batch of exactly capacity valid entries succeeds, and a request with a
negative row, column, bank or bank-group fails with InvalidRequest at
ingestion with only that entry rejected. -/
theorem C7_ingest_errors (b : List Request) (r : Request) : ingestContract b r := by
  refine ⟨?_, ?_, ?_, ?_, ?_⟩
  · unfold ingest
    by_cases hc : BATCHSIZE < countValid b
    · rw [if_pos hc]
      simp [hc]
    · rw [if_neg hc]
      simp [hc]
  · unfold ingest
    by_cases hc : BATCHSIZE < countValid b
    · rw [if_pos hc]
      constructor
      · rintro ⟨l, hl⟩
        exact absurd hl (by simp)
      · intro hle
        omega
    · rw [if_neg hc]
      exact ⟨fun _ => by omega, fun _ => ⟨_, rfl⟩⟩
  · unfold checkRequest
    by_cases hn : negField r
    · rw [if_pos hn]
      simp [hn]
    · rw [if_neg hn]
      simp [hn]
  · unfold checkRequest
    by_cases hn : negField r
    · rw [if_pos hn]
      simp [hn]
    · rw [if_neg hn]
      simp [hn]
  · intro hle
    unfold ingest
    rw [if_neg (by omega)]

/-- C7 witness: the contract instantiated on the reference batch and a
request with a negative row. -/
theorem C7_ingest_errors_witness : ingestContract refBatch ⟨1, 0, 0, -1, 2⟩ :=
  C7_ingest_errors refBatch ⟨1, 0, 0, -1, 2⟩

/-- C8: one scheduling invocation is a finite computation bounded by
BATCHSIZE: at most BATCHSIZE row groups and bank queues and at most
3·BATCHSIZE commands are produced (termination is by construction: every
function of the embedding is structurally recursive and total). -/
theorem C8_bounded_computation (b : List Request) (h : b.length ≤ BATCHSIZE) :
    boundedOutput b := by
  have h1 := alias_batch_length b
  have h2 := bank_conflicts_length (alias_batch b)
  have h3 := scheduler_commands_length b
  have h4 : (scheduler_output b).length = (scheduler_commands b).length :=
    (List.perm_insertionSort cmdLE (scheduler_commands b)).length_eq
  have hB : BATCHSIZE = 5 := rfl
  exact ⟨by omega, by omega, by omega, by omega⟩

/-- C8 witness: the bounds instantiated on the reference batch. -/
theorem C8_bounded_computation_witness :
    refBatch.length ≤ BATCHSIZE ∧ boundedOutput refBatch :=
  ⟨by decide, C8_bounded_computation refBatch (by decide)⟩

/-- C9: the `valid` flag has no influence: two batches equal on
(bank_group, bank, row, col) produce identical RowGroups, BankQueues and
scheduled output, whatever their valid flags. -/
theorem C9_valid_oblivious (b₁ b₂ : List Request)
    (h : b₁.map reqData = b₂.map reqData) :
    alias_batch b₁ = alias_batch b₂ ∧
    bank_conflicts (alias_batch b₁) = bank_conflicts (alias_batch b₂) ∧
    scheduler_output b₁ = scheduler_output b₂ := by
  have ha := alias_batch_data h
  refine ⟨ha, by rw [ha], ?_⟩
  unfold scheduler_output scheduler_commands
  rw [ha]

/-- C9 witness: the reference batch and its all-invalid twin produce
identical results. -/
theorem C9_valid_oblivious_witness :
    refBatch.map reqData = refBatchZero.map reqData ∧
    (alias_batch refBatch = alias_batch refBatchZero ∧
     bank_conflicts (alias_batch refBatch) = bank_conflicts (alias_batch refBatchZero) ∧
     scheduler_output refBatch = scheduler_output refBatchZero) :=
  ⟨by decide, C9_valid_oblivious refBatch refBatchZero (by decide)⟩

/-- C10: for a batch of at most BATCHSIZE entries, the number of RowGroups
and each group's column count stay within BATCHSIZE (so each C write
`col[requests]` is in bounds), the i-th RowGroup's id is i+1, there are no
more BankQueues than RowGroups, and each queue's row count stays within
BATCHSIZE (so each write `rows[requests]` is in bounds). -/
theorem C10_indices_in_bounds (b : List Request) (h : b.length ≤ BATCHSIZE) :
    inBoundsContract b := by
  refine ⟨le_trans (alias_batch_length b) h, ?_, (alias_batch_ok b).2.1,
    bank_conflicts_length _, ?_⟩
  · intro g hg
    have hmem : g.cols.length ∈ (alias_batch b).map (fun g => g.cols.length) :=
      List.mem_map.mpr ⟨g, hg, rfl⟩
    have hle := List.single_le_sum (fun x _ => Nat.zero_le x) _ hmem
    rw [alias_batch_cols_sum] at hle
    omega
  · intro q hq
    rw [(bank_conflicts_ok (alias_batch b)).2.1 q hq, List.length_map]
    calc ((alias_batch b).filter (fun g => decide (gbKey g = qKey q))).length
        ≤ (alias_batch b).length := List.length_filter_le _ _
      _ ≤ b.length := alias_batch_length b
      _ ≤ BATCHSIZE := h

/-- C10 witness: the in-bounds facts instantiated on the reference batch. -/
theorem C10_indices_in_bounds_witness :
    refBatch.length ≤ BATCHSIZE ∧ inBoundsContract refBatch :=
  ⟨by decide, C10_indices_in_bounds refBatch (by decide)⟩

end DramCtrl
